import Mathlib

/-!
A shallow embedding of the Agora master scheduler (`src/agora/agora.cc`).

The master event loop of `Agora::Start`, its event handlers, the dispatch
helpers (`ScheduleSubcarriers`, `ScheduleCodeblocks`, `ScheduleAntennas`,
`ScheduleAntennasTX`, `ScheduleUsers`, `ScheduleDownlinkProcessing`), the
frame bookkeeping (`CheckIncrementScheduleFrame`, `CheckFrameComplete`,
`UpdateRxCounters`, `HandleEventFft`) and the opportunistic FFT dispatch at
the bottom of the loop are translated into a step function
`Agora.step : Config → AgoraState → Ev → Option (AgoraState × List OutEv)`.

Conventions of the embedding:
* Statistics collection, timestamping and debug printing (`stats_`,
  `phy_stats_`, `MLPD_*`, `PrintPer*Done`) have no effect on scheduling and
  are omitted; the DSP buffers themselves (socket/CSI/ZF/... memory) are
  likewise outside the scheduler state.
* A C++ `assert` or `RtAssert` aborts the process when its condition fails
  (the asserts are part of the source text of `agora.cc`); the embedding
  returns `none` in that case, and likewise for the undefined behaviour of
  `std::queue::front()` on an empty queue.  A returned `some` state is one
  the real master loop can be in.
* `size_t` values used as "none yet" sentinels (`SIZE_MAX` in
  `zf_last_frame_`-style fields and the rendezvous tables) are modelled as
  `Option Nat` with `none` for `SIZE_MAX`.
* Each enqueue of an `EventData` into a worker queue is recorded as one
  `OutEv` carrying the event type, the (frame, symbol) coordinate of its
  base tag and the number of tags; the per-tag subcarrier / antenna /
  codeblock offsets are not recorded.  In addition the ghost fields
  `txHist` and `flagLog` of the state record, respectively, each call of
  `ScheduleAntennasTX` and each contribution passed to
  `CheckIncrementScheduleFrame`; they are instrumentation only and are read
  by no handler.
* Events that touch only modulation configuration or statistics
  (`kRANUpdate`, `kSNRReport`) are omitted from the event alphabet.
-/

namespace Agora

/-- Modelled from the spec: the frame window `W` ("typical: 8"); the
constant `kFrameWnd` itself is defined in a header that is not part of the
sources. -/
def kFrameWnd : Nat := 8

/-- Modelled from the spec: `kScheduleQueues` ("typical
`kScheduleQueues = 2`"); the constant is defined in a header that is not
part of the sources. -/
def kScheduleQueues : Nat := 2

/-- Modelled from the spec: the `ScheduleProcessingFlags` bits
(`kUplinkComplete`), incremented with `+=` on the underlying integer as the
source does. -/
def kUplinkComplete : Nat := 1

/-- Modelled from the spec: the `ScheduleProcessingFlags` bit
`kDownlinkComplete`. -/
def kDownlinkComplete : Nat := 2

/-- Modelled from the spec: `kProcessingComplete` =
`kUplinkComplete + kDownlinkComplete`. -/
def kProcessingComplete : Nat := 3

/-- Symbol classification of the `FrameSchedule` (spec §3). -/
inductive SymbolType where
  | Pilot | UL | DL | CalDL | CalUL | Guard
  deriving DecidableEq, Repr

/-- The immutable configuration surface used by the scheduler: antenna
counts, batch sizes, thread counts, mode flags and the symbol schedule
(`Config` / `FrameStats` accessors used in `agora.cc`). -/
structure Config where
  bsAntNum : Nat
  ueAntNum : Nat
  fftBlockSize : Nat
  zfEventsPerSymbol : Nat
  zfBlockSize : Nat
  zfBatchSize : Nat
  demulEventsPerSymbol : Nat
  demulBlockSize : Nat
  encodeBlockSize : Nat
  numBlocksInSymbol : Nat
  socketThreadNum : Nat
  numChannels : Nat
  framesToTest : Nat
  enableMac : Bool
  bigstationMode : Bool
  isRecCalEnabled : Bool
  pilotSyms : List Nat
  ulSyms : List Nat
  dlSyms : List Nat
  calDlSyms : List Nat
  calUlSyms : List Nat
  clientDlPilotSyms : Nat
  deriving Repr

namespace Config

def numPilotSyms (c : Config) : Nat := c.pilotSyms.length
def numULSyms (c : Config) : Nat := c.ulSyms.length
def numDLSyms (c : Config) : Nat := c.dlSyms.length

/-- `Frame().NumDlDataSyms()`: downlink symbols that carry data (all but
the client downlink pilots). -/
def numDlDataSyms (c : Config) : Nat := c.numDLSyms - c.clientDlPilotSyms

def getULSymbol (c : Config) (i : Nat) : Nat := c.ulSyms.getD i 0
def getDLSymbol (c : Config) (i : Nat) : Nat := c.dlSyms.getD i 0
def getULSymbolIdx (c : Config) (s : Nat) : Nat := c.ulSyms.indexOf s
def getDLSymbolIdx (c : Config) (s : Nat) : Nat := c.dlSyms.indexOf s

/-- `Config::GetSymbolType`, derived from the symbol schedule lists. -/
def symbolType (c : Config) (s : Nat) : SymbolType :=
  if s ∈ c.pilotSyms then .Pilot
  else if s ∈ c.ulSyms then .UL
  else if s ∈ c.dlSyms then .DL
  else if s ∈ c.calDlSyms then .CalDL
  else if s ∈ c.calUlSyms then .CalUL
  else .Guard

/-- `rx_counters_.num_pkts_per_frame_` as set in
`InitializeUplinkBuffers`. -/
def numPktsPerFrame (c : Config) : Nat :=
  c.bsAntNum * (c.numPilotSyms + c.numULSyms + (if c.isRecCalEnabled then 1 else 0))

/-- `rx_counters_.num_pilot_pkts_per_frame_`. -/
def numPilotPktsPerFrame (c : Config) : Nat := c.bsAntNum * c.numPilotSyms

/-- `rx_counters_.num_reciprocity_pkts_per_frame_`. -/
def numReciprocityPktsPerFrame (c : Config) : Nat := c.bsAntNum

end Config

/-- Modelled from the spec: the per-frame, per-symbol stage counter
(`FrameCounters` of `counters.h`, which is not among the sources; spec §3
"Counter").  Per frame slot (`frame_id mod W`) it holds a per-symbol task
count and a symbols-complete count, with configured maxima.  Counters
without symbol granularity use only the per-frame (symbol) count. -/
structure FrameCounters where
  taskCount : Nat → Nat → Nat
  symbolCount : Nat → Nat
  maxTask : Nat
  maxSymbol : Nat

namespace FrameCounters

/-- A counter before `Init` is called on it: all counts and maxima zero. -/
def empty : FrameCounters :=
  { taskCount := fun _ _ => 0, symbolCount := fun _ => 0, maxTask := 0, maxSymbol := 0 }

/-- `Init(max_symbol_count, max_task_count)`. -/
def init (maxSymbol maxTask : Nat) : FrameCounters :=
  { empty with maxTask := maxTask, maxSymbol := maxSymbol }

/-- `CompleteTask(frame_id, symbol_id)`: increment the task count of the
frame slot at this symbol and report whether it reached the per-symbol
maximum ("last task of symbol"). -/
def completeTask (c : FrameCounters) (frame symbol : Nat) : FrameCounters × Bool :=
  let slot := frame % kFrameWnd
  let n := c.taskCount slot symbol + 1
  ({ c with
      taskCount := fun sl sy => if sl = slot ∧ sy = symbol then n else c.taskCount sl sy },
   n == c.maxTask)

/-- `CompleteTask(frame_id)` of the counters without symbol granularity
(ZF, reciprocal calibration): a single per-frame count. -/
def completeFrameTask (c : FrameCounters) (frame : Nat) : FrameCounters × Bool :=
  let slot := frame % kFrameWnd
  let n := c.symbolCount slot + 1
  ({ c with symbolCount := fun sl => if sl = slot then n else c.symbolCount sl },
   n == c.maxSymbol)

/-- `CompleteSymbol(frame_id)`: increment the symbols-complete count of the
frame slot and report whether it reached the per-frame maximum ("last
symbol of frame"). -/
def completeSymbol (c : FrameCounters) (frame : Nat) : FrameCounters × Bool :=
  let slot := frame % kFrameWnd
  let n := c.symbolCount slot + 1
  ({ c with symbolCount := fun sl => if sl = slot then n else c.symbolCount sl },
   n == c.maxSymbol)

/-- `IsLastSymbol(frame_id)`. -/
def isLastSymbol (c : FrameCounters) (frame : Nat) : Bool :=
  c.symbolCount (frame % kFrameWnd) == c.maxSymbol

/-- `GetSymbolCount(frame_id)`. -/
def getSymbolCount (c : FrameCounters) (frame : Nat) : Nat :=
  c.symbolCount (frame % kFrameWnd)

/-- `GetTaskCount(frame_id, symbol_id)`. -/
def getTaskCount (c : FrameCounters) (frame symbol : Nat) : Nat :=
  c.taskCount (frame % kFrameWnd) symbol

/-- `Reset(frame_id)`: clear all counts of the frame slot. -/
def reset (c : FrameCounters) (frame : Nat) : FrameCounters :=
  let slot := frame % kFrameWnd
  { c with
    taskCount := fun sl sy => if sl = slot then 0 else c.taskCount sl sy,
    symbolCount := fun sl => if sl = slot then 0 else c.symbolCount sl }

end FrameCounters

/-- The event types dispatched by the master into the worker/TX/MAC
queues (`EventType` restricted to what the master produces). -/
inductive EvType where
  | kFFT | kZF | kDemul | kDecode | kEncode | kPrecode | kIFFT | kPacketTX | kPacketToMac
  deriving DecidableEq, Repr

/-- One `EventData` enqueued by the master: its type, the (frame, symbol)
coordinates of its base tag and the number of tags it carries. -/
structure OutEv where
  etype : EvType
  frame : Nat
  symbol : Nat
  ntags : Nat
  deriving DecidableEq, Repr

/-- An event dequeued by the master loop: an RX/MAC intake event or a
worker completion.  Completion events of the batched stages (`kFFT`,
`kZF`, `kEncode`, `kIFFT`) carry a tag list, mirroring `EventData`; the
others are handled through `tags_[0]` only and carry one coordinate
(subcarrier/antenna/codeblock ids that the handlers ignore are dropped). -/
inductive Ev where
  | packetRX (frame symbol : Nat)
  | fft (tags : List (Nat × Nat))
  | zf (tags : List Nat)
  | demul (frame symbol : Nat)
  | decode (frame symbol : Nat)
  | packetToMac (frame symbol : Nat)
  | packetFromMac (frame : Nat)
  | encode (tags : List (Nat × Nat))
  | precode (frame symbol : Nat)
  | ifft (tags : List (Nat × Nat))
  | packetTX (frame symbol : Nat)
  deriving DecidableEq, Repr

/-- The master-owned scheduler state of class `Agora` (counters, rendezvous
tables, window positions, deferral queue, FFT backlog), plus the ghost
fields `txHist`/`flagLog` (see the file header). -/
structure AgoraState where
  curScheFrame : Nat
  curProcFrame : Nat
  scheduleFlags : Nat
  zfLastFrame : Option Nat
  rcLastFrame : Option Nat
  fftCurFrameForSymbol : List (Option Nat)
  encodeCurFrameForSymbol : List (Option Nat)
  ifftCurFrameForSymbol : List (Option Nat)
  ifftNextSymbol : Nat
  encodeDeferral : List Nat
  rxNumPkts : Nat → Nat
  rxNumPilotPkts : Nat → Nat
  rxNumReciprocityPkts : Nat → Nat
  fftQueue : Nat → List (Nat × Nat)
  fftCreatedCount : Nat
  pilotFftCounters : FrameCounters
  uplinkFftCounters : FrameCounters
  rcCounters : FrameCounters
  zfCounters : FrameCounters
  demulCounters : FrameCounters
  decodeCounters : FrameCounters
  tomacCounters : FrameCounters
  macToPhyCounters : FrameCounters
  encodeCounters : FrameCounters
  precodeCounters : FrameCounters
  ifftCounters : FrameCounters
  txCounters : FrameCounters
  maxEqualedFrame : Nat
  running : Bool
  txHist : List (Nat × Nat)
  flagLog : List (Nat × Nat)

/-- The schedule-flag value installed after an advance of
`cur_sche_frame_id_`: directions that do not exist are pre-set complete
(`CheckIncrementScheduleFrame`). -/
def presetFlags (cfg : Config) : Nat :=
  (if cfg.numULSyms = 0 then kUplinkComplete else 0) +
  (if cfg.numDLSyms = 0 then kDownlinkComplete else 0)

/-- The state after the `Agora` constructor, `InitializeUplinkBuffers` and
`InitializeDownlinkBuffers` (downlink counters are initialized only when
`NumDLSyms() > 0`). -/
def initState (cfg : Config) : AgoraState where
  curScheFrame := 0
  curProcFrame := 0
  scheduleFlags := presetFlags cfg
  zfLastFrame := none
  rcLastFrame := none
  fftCurFrameForSymbol := List.replicate cfg.numULSyms none
  encodeCurFrameForSymbol := List.replicate cfg.numDLSyms none
  ifftCurFrameForSymbol := List.replicate cfg.numDLSyms none
  ifftNextSymbol := 0
  encodeDeferral := []
  rxNumPkts := fun _ => 0
  rxNumPilotPkts := fun _ => 0
  rxNumReciprocityPkts := fun _ => 0
  fftQueue := fun _ => []
  fftCreatedCount := 0
  pilotFftCounters := .init cfg.numPilotSyms cfg.bsAntNum
  uplinkFftCounters := .init cfg.numULSyms cfg.bsAntNum
  rcCounters := .init cfg.bsAntNum 0
  zfCounters := .init cfg.zfEventsPerSymbol 0
  demulCounters := .init cfg.numULSyms cfg.demulEventsPerSymbol
  decodeCounters := .init cfg.numULSyms (cfg.numBlocksInSymbol * cfg.ueAntNum)
  tomacCounters := .init cfg.numULSyms cfg.ueAntNum
  macToPhyCounters :=
    if 0 < cfg.numDLSyms then .init 1 cfg.ueAntNum else .empty
  encodeCounters :=
    if 0 < cfg.numDLSyms then
      .init cfg.numDlDataSyms (cfg.numBlocksInSymbol * cfg.ueAntNum)
    else .empty
  precodeCounters :=
    if 0 < cfg.numDLSyms then .init cfg.numDLSyms cfg.demulEventsPerSymbol else .empty
  ifftCounters :=
    if 0 < cfg.numDLSyms then .init cfg.numDLSyms cfg.bsAntNum else .empty
  txCounters :=
    if 0 < cfg.numDLSyms then .init cfg.numDLSyms cfg.bsAntNum else .empty
  maxEqualedFrame := 0
  running := true
  txHist := []
  flagLog := []

/-- Pointwise update of a slot-indexed counter array. -/
def updFn (f : Nat → Nat) (k v : Nat) : Nat → Nat :=
  fun x => if x = k then v else f x

/-- Pointwise update of the slot-indexed FFT backlog array. -/
def updQ (f : Nat → List (Nat × Nat)) (k : Nat) (v : List (Nat × Nat)) :
    Nat → List (Nat × Nat) :=
  fun x => if x = k then v else f x

/-- The common dispatch loop of `ScheduleAntennas`, `ScheduleCodeblocks`
and the ZF branch of `ScheduleSubcarriers`: `numTasks` tags are packed
into events of `blockSize` tags, the last event carrying the remainder
when `numTasks` is not a multiple of `blockSize`. -/
def blockedDispatch (etype : EvType) (frame symbol numTasks blockSize : Nat) :
    List OutEv :=
  let q := numTasks / blockSize
  let r := numTasks % blockSize
  let numBlocks := if r > 0 then q + 1 else q
  (List.range numBlocks).map fun i =>
    ⟨etype, frame, symbol, if i = numBlocks - 1 ∧ r > 0 then r else blockSize⟩

/-- `Agora::ScheduleSubcarriers`: ZF work is batched `ZfBatchSize` tags per
event over `ZfEventsPerSymbol` events; Demul/Precode work is one
single-tag event per `DemulBlockSize` subcarrier block,
`DemulEventsPerSymbol` events in total. -/
def scheduleSubcarriers (cfg : Config) (etype : EvType) (frame symbol : Nat) :
    List OutEv :=
  match etype with
  | .kZF => blockedDispatch .kZF frame symbol cfg.zfEventsPerSymbol cfg.zfBatchSize
  | _ => List.replicate cfg.demulEventsPerSymbol ⟨etype, frame, symbol, 1⟩

/-- `Agora::ScheduleCodeblocks`: `UeAntNum * NumBlocksInSymbol` codeblock
tags packed into events of `EncodeBlockSize` tags. -/
def scheduleCodeblocks (cfg : Config) (etype : EvType) (frame symbol : Nat) :
    List OutEv :=
  blockedDispatch etype frame symbol (cfg.ueAntNum * cfg.numBlocksInSymbol)
    cfg.encodeBlockSize

/-- `Agora::ScheduleAntennas` (FFT/IFFT): `BsAntNum` antenna tags packed
into events of `FftBlockSize` tags. -/
def scheduleAntennas (cfg : Config) (etype : EvType) (frame symbol : Nat) :
    List OutEv :=
  blockedDispatch etype frame symbol cfg.bsAntNum cfg.fftBlockSize

/-- `Agora::ScheduleAntennasTX`: one single-tag `kPacketTX` event per
antenna, spread over the socket-thread producer tokens; handler `h` of
`SocketThreadNum` receives events until its per-handler ceiling is reached
or all `BsAntNum` antennas are scheduled. -/
def scheduleAntennasTX (cfg : Config) (frame symbol : Nat) : List OutEv :=
  let total := cfg.bsAntNum
  let handlers := cfg.socketThreadNum
  let floorE := total / handlers
  let ceilE := if total % handlers > 0 then floorE + 1 else floorE
  (List.range handlers).flatMap fun h =>
    List.replicate (min ceilE (total - h * ceilE)) ⟨.kPacketTX, frame, symbol, 1⟩

/-- `Agora::ScheduleUsers` (`kPacketToMac`): one event per user antenna
into the MAC request queue. -/
def scheduleUsers (cfg : Config) (frame symbol : Nat) : List OutEv :=
  List.replicate cfg.ueAntNum ⟨.kPacketToMac, frame, symbol, 1⟩

/-- One client-downlink-pilot iteration of
`Agora::ScheduleDownlinkProcessing`: precode the pilot symbol at once when
ZF of this frame is done, otherwise record the frame in the encode
rendezvous table. -/
def sdpPilotStep (cfg : Config) (frame : Nat) (acc : AgoraState × List OutEv)
    (i : Nat) : AgoraState × List OutEv :=
  if acc.1.zfLastFrame = some frame then
    (acc.1, acc.2 ++ scheduleSubcarriers cfg .kPrecode frame (cfg.getDLSymbol i))
  else
    ({ acc.1 with
        encodeCurFrameForSymbol := acc.1.encodeCurFrameForSymbol.set i (some frame) },
     acc.2)

/-- `Agora::ScheduleDownlinkProcessing`: the client downlink pilot loop
(`sdpPilotStep`), then schedule encoding of every downlink data symbol. -/
def scheduleDownlinkProcessing (cfg : Config) (st : AgoraState) (frame : Nat) :
    AgoraState × List OutEv :=
  let numPilotSymbols := cfg.clientDlPilotSyms
  let res := (List.range numPilotSymbols).foldl (sdpPilotStep cfg frame) (st, [])
  let dataOut := ((List.range cfg.numDLSyms).drop numPilotSymbols).flatMap fun i =>
    scheduleCodeblocks cfg .kEncode frame (cfg.getDLSymbol i)
  (res.1, res.2 ++ dataOut)

/-- `Agora::CheckIncrementScheduleFrame`: add the contribution to the
schedule flags (a numeric `+=`, as in the source); when the flags equal
`kProcessingComplete`, advance `cur_sche_frame_id_` and re-initialize the
flags, pre-setting directions that do not exist.  The `assert` that the
call concerns the current schedule frame is a guard; the ghost `flagLog`
records the contribution. -/
def checkIncrementScheduleFrame (cfg : Config) (st : AgoraState)
    (frame completed : Nat) : Option AgoraState :=
  let st := { st with
    scheduleFlags := st.scheduleFlags + completed,
    flagLog := st.flagLog ++ [(frame, completed)] }
  if st.curScheFrame = frame then
    if st.scheduleFlags = kProcessingComplete then
      some { st with
        curScheFrame := st.curScheFrame + 1,
        scheduleFlags := presetFlags cfg }
    else
      some st
  else
    none

/-- The deferral-drain loop at the end of `Agora::CheckFrameComplete`: at
most `kScheduleQueues` iterations; each takes the front of
`encode_deferral_`, and when it is within the schedule window it is
`RtAssert`-checked against the processing frame, dispatched and popped;
otherwise the scan halts.  Taking the front of an empty `std::queue` is
undefined behaviour, modelled as `none`. -/
def drainDeferral (cfg : Config) :
    Nat → AgoraState → List OutEv → Option (AgoraState × List OutEv)
  | 0, st, out => some (st, out)
  | fuel + 1, st, out =>
    match st.encodeDeferral with
    | [] => none
    | deferredFrame :: rest =>
      if deferredFrame < st.curProcFrame + kScheduleQueues then
        if deferredFrame ≥ st.curProcFrame then
          let res := scheduleDownlinkProcessing cfg st deferredFrame
          drainDeferral cfg fuel { res.1 with encodeDeferral := rest } (out ++ res.2)
        else
          none
      else
        some (st, out)

/-- The completion condition tested by `Agora::CheckFrameComplete`: IFFT
last-symbol, TX last-symbol, and Decode last-symbol without MAC / MAC-TX
last-symbol with MAC. -/
def frameCompleteCond (cfg : Config) (st : AgoraState) (frame : Nat) : Prop :=
  st.ifftCounters.isLastSymbol frame ∧ st.txCounters.isLastSymbol frame ∧
    ((cfg.enableMac = false ∧ st.decodeCounters.isLastSymbol frame) ∨
     (cfg.enableMac = true ∧ st.tomacCounters.isLastSymbol frame))

instance (cfg : Config) (st : AgoraState) (frame : Nat) :
    Decidable (frameCompleteCond cfg st frame) := by
  unfold frameCompleteCond
  infer_instance

/-- `Agora::CheckFrameComplete`: when the IFFT, TX and (depending on the
MAC mode) Decode or MAC-TX counters all report last-symbol for the frame,
reset them, advance `cur_proc_frame_id_`, drain the deferral queue, and
report whether this was frame `FramesToTest - 1`.  The internal `assert`
that the frame is the current processing frame is a guard. -/
def checkFrameComplete (cfg : Config) (st : AgoraState) (frame : Nat) :
    Option (AgoraState × List OutEv × Bool) :=
  if frameCompleteCond cfg st frame then
    if frame = st.curProcFrame then
      let st := { st with
        decodeCounters := st.decodeCounters.reset frame,
        tomacCounters := st.tomacCounters.reset frame,
        ifftCounters := st.ifftCounters.reset frame,
        txCounters := st.txCounters.reset frame,
        curProcFrame := st.curProcFrame + 1 }
      let drained :=
        if st.encodeDeferral ≠ [] then
          drainDeferral cfg kScheduleQueues st []
        else
          some (st, [])
      match drained with
      | none => none
      | some (st, out) => some (st, out, frame = cfg.framesToTest - 1)
    else
      none
  else
    some (st, [], false)

/-- The pilot / reciprocity packet accounting of `Agora::UpdateRxCounters`:
the per-type count of the frame slot, wrapping to zero when it reaches its
per-frame maximum. -/
def rxPacketTypeCount (cfg : Config) (st : AgoraState) (frame symbol : Nat) :
    AgoraState :=
  let frameSlot := frame % kFrameWnd
  if cfg.symbolType symbol = .Pilot then
    let n := st.rxNumPilotPkts frameSlot + 1
    { st with rxNumPilotPkts := (updFn st.rxNumPilotPkts frameSlot
        (if n = cfg.numPilotPktsPerFrame then 0 else n)) }
  else if cfg.symbolType symbol = .CalDL ∨ cfg.symbolType symbol = .CalUL then
    let n := st.rxNumReciprocityPkts frameSlot + 1
    { st with rxNumReciprocityPkts := (updFn st.rxNumReciprocityPkts frameSlot
        (if n = cfg.numReciprocityPktsPerFrame then 0 else n)) }
  else st

/-- `Agora::UpdateRxCounters`: pilot / reciprocity packet accounting, the
first-packet downlink trigger (no-MAC mode: defer or call
`ScheduleDownlinkProcessing`), and the total packet count of the frame
slot, wrapping to zero when it reaches its per-frame maximum. -/
def updateRxCounters (cfg : Config) (st : AgoraState) (frame symbol : Nat) :
    AgoraState × List OutEv :=
  let frameSlot := frame % kFrameWnd
  let st1 := rxPacketTypeCount cfg st frame symbol
  let res :=
    if st1.rxNumPkts frameSlot = 0 then
      if cfg.enableMac = false then
        if st1.encodeDeferral ≠ [] ∨ frame ≥ st1.curProcFrame + kScheduleQueues then
          ({ st1 with encodeDeferral := st1.encodeDeferral ++ [frame] },
           ([] : List OutEv))
        else
          scheduleDownlinkProcessing cfg st1 frame
      else (st1, [])
    else (st1, [])
  let n := res.1.rxNumPkts frameSlot + 1
  ({ res.1 with rxNumPkts := (updFn res.1.rxNumPkts frameSlot
      (if n = cfg.numPktsPerFrame then 0 else n)) },
   res.2)

/-- `Agora::HandleEventFft`: pilot-symbol FFT completions drive the
pilot counters and — all pilots done and, with reciprocal calibration
enabled, `rc_last_frame_` at this frame — schedule ZF; uplink-symbol
completions record the FFT rendezvous entry and schedule Demul when ZF of
the frame is already done; calibration-symbol completions drive the
reciprocity counter and `rc_last_frame_`. -/
def handleEventFft (cfg : Config) (st : AgoraState) (frame symbol : Nat) :
    AgoraState × List OutEv :=
  match cfg.symbolType symbol with
  | .Pilot =>
    let (pc, lastFftTask) := st.pilotFftCounters.completeTask frame symbol
    let st := { st with pilotFftCounters := pc }
    if lastFftTask then
      if cfg.isRecCalEnabled = false ∨
          (cfg.isRecCalEnabled = true ∧ st.rcLastFrame = some frame) then
        let (pc2, lastPilotFft) := st.pilotFftCounters.completeSymbol frame
        let st := { st with pilotFftCounters := pc2 }
        if lastPilotFft then
          let st := { st with pilotFftCounters := st.pilotFftCounters.reset frame }
          (st, scheduleSubcarriers cfg .kZF frame 0)
        else (st, [])
      else (st, [])
    else (st, [])
  | .UL =>
    let symbolIdxUl := cfg.getULSymbolIdx symbol
    let (uc, lastFftPerSymbol) := st.uplinkFftCounters.completeTask frame symbol
    let st := { st with uplinkFftCounters := uc }
    if lastFftPerSymbol then
      let st := { st with
        fftCurFrameForSymbol := st.fftCurFrameForSymbol.set symbolIdxUl (some frame) }
      let out :=
        if st.zfLastFrame = some frame then
          scheduleSubcarriers cfg .kDemul frame symbol
        else []
      let (uc2, lastUplinkFft) := st.uplinkFftCounters.completeSymbol frame
      let st := { st with uplinkFftCounters := uc2 }
      let st :=
        if lastUplinkFft then
          { st with uplinkFftCounters := st.uplinkFftCounters.reset frame }
        else st
      (st, out)
    else (st, [])
  | .CalDL | .CalUL =>
    let (rc, lastRcTask) := st.rcCounters.completeFrameTask frame
    let st := { st with rcCounters := rc }
    if lastRcTask then
      ({ st with rcCounters := st.rcCounters.reset frame, rcLastFrame := some frame },
       [])
    else (st, [])
  | _ => (st, [])

/-- The `kFFT` case of the master loop: `HandleEventFft` on each tag. -/
def handleFft (cfg : Config) (tags : List (Nat × Nat)) (st : AgoraState) :
    AgoraState × List OutEv :=
  tags.foldl
    (fun acc t =>
      let r := handleEventFft cfg acc.1 t.1 t.2
      (r.1, acc.2 ++ r.2))
    (st, [])

/-- One tag of the `kZF` case: on the last ZF task of a frame, record
`zf_last_frame_`, reset the counter, and flush the deferred Demul
(uplink symbols whose FFT rendezvous entry equals the frame) and Precode
(downlink symbols whose encode rendezvous entry is at least the frame)
dispatches. -/
def handleZfTag (cfg : Config) (st : AgoraState) (frame : Nat) :
    AgoraState × List OutEv :=
  let (zc, lastZfTask) := st.zfCounters.completeFrameTask frame
  let st := { st with zfCounters := zc }
  if lastZfTask then
    let st := { st with
      zfLastFrame := some frame,
      zfCounters := st.zfCounters.reset frame }
    let demulOut := (List.range cfg.numULSyms).flatMap fun i =>
      if st.fftCurFrameForSymbol.getD i none = some frame then
        scheduleSubcarriers cfg .kDemul frame (cfg.getULSymbol i)
      else []
    let precodeOut := (List.range cfg.numDLSyms).flatMap fun i =>
      match st.encodeCurFrameForSymbol.getD i none with
      | some lastEncodedFrame =>
        if lastEncodedFrame ≥ frame then
          scheduleSubcarriers cfg .kPrecode frame (cfg.getDLSymbol i)
        else []
      | none => []
    (st, demulOut ++ precodeOut)
  else (st, [])

/-- The `kZF` case of the master loop over the tag list. -/
def handleZf (cfg : Config) (tags : List Nat) (st : AgoraState) :
    AgoraState × List OutEv :=
  tags.foldl
    (fun acc f =>
      let r := handleZfTag cfg acc.1 f
      (r.1, acc.2 ++ r.2))
    (st, [])

/-- The `kDemul` case of the master loop: the last Demul task of a symbol
schedules Decode; the last Demul symbol of the frame resets the counter
and, outside bigstation mode, contributes `kUplinkComplete` for the
current schedule frame (the `assert` is the guard of
`checkIncrementScheduleFrame`), while in bigstation mode it schedules the
Decode codeblocks a second time. -/
def handleDemul (cfg : Config) (st : AgoraState) (frame symbol : Nat) :
    Option (AgoraState × List OutEv) :=
  let (dc, lastDemulTask) := st.demulCounters.completeTask frame symbol
  let st := { st with demulCounters := dc }
  if lastDemulTask then
    let out := scheduleCodeblocks cfg .kDecode frame symbol
    let (dc2, lastDemulSymbol) := st.demulCounters.completeSymbol frame
    let st := { st with demulCounters := dc2 }
    if lastDemulSymbol then
      let st := { st with
        demulCounters := st.demulCounters.reset frame,
        maxEqualedFrame := frame }
      if cfg.bigstationMode = false then
        match checkIncrementScheduleFrame cfg st frame kUplinkComplete with
        | none => none
        | some st => some (st, out)
      else
        some (st, out ++ scheduleCodeblocks cfg .kDecode frame symbol)
    else some (st, out)
  else some (st, [])

/-- The `kDecode` case of the master loop: the last Decode task of a
symbol schedules MAC TX when MAC is enabled; the last Decode symbol,
without MAC, checks frame completion (the `assert` on the processing frame
is a guard; a `true` result is the `goto finish`). -/
def handleDecode (cfg : Config) (st : AgoraState) (frame symbol : Nat) :
    Option (AgoraState × List OutEv × Bool) :=
  let (dc, lastDecodeTask) := st.decodeCounters.completeTask frame symbol
  let st := { st with decodeCounters := dc }
  if lastDecodeTask then
    let out := if cfg.enableMac then scheduleUsers cfg frame symbol else []
    let (dc2, lastDecodeSymbol) := st.decodeCounters.completeSymbol frame
    let st := { st with decodeCounters := dc2 }
    if lastDecodeSymbol then
      if cfg.enableMac = false then
        if st.curProcFrame = frame then
          match checkFrameComplete cfg st frame with
          | none => none
          | some (st, out2, workFinished) => some (st, out ++ out2, workFinished)
        else none
      else some (st, out, false)
    else some (st, out, false)
  else some (st, [], false)

/-- The `kPacketToMac` case of the master loop: the last MAC-TX task and
symbol of a frame check frame completion (the `assert` on the processing
frame is a guard). -/
def handleToMac (cfg : Config) (st : AgoraState) (frame symbol : Nat) :
    Option (AgoraState × List OutEv × Bool) :=
  let (tc, lastTomacTask) := st.tomacCounters.completeTask frame symbol
  let st := { st with tomacCounters := tc }
  if lastTomacTask then
    let (tc2, lastTomacSymbol) := st.tomacCounters.completeSymbol frame
    let st := { st with tomacCounters := tc2 }
    if lastTomacSymbol then
      if st.curProcFrame = frame then
        match checkFrameComplete cfg st frame with
        | none => none
        | some (st, out, workFinished) => some (st, out, workFinished)
      else none
    else some (st, [], false)
  else some (st, [], false)

/-- The `kPacketFromMac` case of the master loop: the last user's MAC bits
for the frame either defer the frame's encoding (deferral queue non-empty
or the frame too far beyond the processing frame) or schedule its downlink
processing at once, then reset the MAC-to-PHY counter. -/
def handleFromMac (cfg : Config) (st : AgoraState) (frame : Nat) :
    AgoraState × List OutEv :=
  let ct := st.macToPhyCounters.completeTask frame 0
  let st := { st with macToPhyCounters := ct.1 }
  if ct.2 then
    let res :=
      if st.encodeDeferral ≠ [] ∨ frame ≥ st.curProcFrame + kScheduleQueues then
        ({ st with encodeDeferral := st.encodeDeferral ++ [frame] },
         ([] : List OutEv))
      else
        scheduleDownlinkProcessing cfg st frame
    ({ res.1 with macToPhyCounters := res.1.macToPhyCounters.reset frame }, res.2)
  else (st, [])

/-- One tag of the `kEncode` case: the last Encode task of a symbol records
the encode rendezvous entry and, when ZF of the frame is done, schedules
Precode; the last Encode symbol resets the counter. -/
def handleEncodeTag (cfg : Config) (st : AgoraState) (frame symbol : Nat) :
    AgoraState × List OutEv :=
  let (ec, lastEncodeTask) := st.encodeCounters.completeTask frame symbol
  let st := { st with encodeCounters := ec }
  if lastEncodeTask then
    let st := { st with
      encodeCurFrameForSymbol :=
        st.encodeCurFrameForSymbol.set (cfg.getDLSymbolIdx symbol) (some frame) }
    let out :=
      if st.zfLastFrame = some frame then
        scheduleSubcarriers cfg .kPrecode frame symbol
      else []
    let (ec2, lastEncodeSymbol) := st.encodeCounters.completeSymbol frame
    let st := { st with encodeCounters := ec2 }
    let st :=
      if lastEncodeSymbol then
        { st with encodeCounters := st.encodeCounters.reset frame }
      else st
    (st, out)
  else (st, [])

/-- The `kEncode` case of the master loop over the tag list. -/
def handleEncode (cfg : Config) (tags : List (Nat × Nat)) (st : AgoraState) :
    AgoraState × List OutEv :=
  tags.foldl
    (fun acc t =>
      let r := handleEncodeTag cfg acc.1 t.1 t.2
      (r.1, acc.2 ++ r.2))
    (st, [])

/-- The `kPrecode` case of the master loop: the last Precode task of a
symbol schedules IFFT; the last Precode symbol resets the counter. -/
def handlePrecode (cfg : Config) (st : AgoraState) (frame symbol : Nat) :
    AgoraState × List OutEv :=
  let (pc, lastPrecodeTask) := st.precodeCounters.completeTask frame symbol
  let st := { st with precodeCounters := pc }
  if lastPrecodeTask then
    let out := scheduleAntennas cfg .kIFFT frame symbol
    let (pc2, lastPrecodeSymbol) := st.precodeCounters.completeSymbol frame
    let st := { st with precodeCounters := pc2 }
    let st :=
      if lastPrecodeSymbol then
        { st with precodeCounters := st.precodeCounters.reset frame }
      else st
    (st, out)
  else (st, [])

/-- The in-order TX dispatch loop of the `kIFFT` case: starting from the
completed symbol, schedule TX for the continuously available symbols
(IFFT rendezvous entry equal to the frame), advancing
`ifft_next_symbol_`; stop at the first unavailable one.  Each dispatched
symbol is also recorded in the ghost `txHist`. -/
def txFlush (cfg : Config) (frame : Nat) :
    List Nat → AgoraState → AgoraState × List OutEv
  | [], st => (st, [])
  | symId :: rest, st =>
    if st.ifftCurFrameForSymbol.getD symId none = some frame then
      let out1 := scheduleAntennasTX cfg frame (cfg.getDLSymbol symId)
      let st := { st with
        ifftNextSymbol := st.ifftNextSymbol + 1,
        txHist := st.txHist ++ [(frame, cfg.getDLSymbol symId)] }
      let r := txFlush cfg frame rest st
      (r.1, out1 ++ r.2)
    else (st, [])

/-- Tail of one `kIFFT` tag after the optional TX flush: completing the last
IFFT symbol resets `ifft_next_symbol_`, contributes `kDownlinkComplete` (the
`assert`s on the processing and schedule frames are guards) and checks frame
completion. -/
def ifftSymbolDone (cfg : Config) (frame : Nat) (fl : AgoraState × List OutEv) :
    Option (AgoraState × List OutEv × Bool) :=
  let cs := fl.1.ifftCounters.completeSymbol frame
  let st := { fl.1 with ifftCounters := cs.1 }
  if cs.2 then
    let st := { st with ifftNextSymbol := 0 }
    if frame = st.curProcFrame then
      match checkIncrementScheduleFrame cfg st frame kDownlinkComplete with
      | none => none
      | some st =>
        match checkFrameComplete cfg st frame with
        | none => none
        | some (st, out2, workFinished) => some (st, fl.2 ++ out2, workFinished)
    else none
  else some (st, fl.2, false)

/-- One tag of the `kIFFT` case: the last IFFT task of a symbol records the
IFFT rendezvous entry and, when the symbol is the next expected TX symbol,
runs the in-order TX dispatch loop bounded by the completed-symbol count;
then `ifftSymbolDone` completes the symbol. -/
def handleIfftTag (cfg : Config) (st : AgoraState) (frame symbol : Nat) :
    Option (AgoraState × List OutEv × Bool) :=
  let symbolIdxDl := cfg.getDLSymbolIdx symbol
  let (ic, lastIfftTask) := st.ifftCounters.completeTask frame symbol
  let st := { st with ifftCounters := ic }
  if lastIfftTask then
    let st := { st with
      ifftCurFrameForSymbol := st.ifftCurFrameForSymbol.set symbolIdxDl (some frame) }
    let fl :=
      if symbolIdxDl = st.ifftNextSymbol then
        txFlush cfg frame
          (List.range' symbolIdxDl (st.ifftCounters.getSymbolCount frame + 1 - symbolIdxDl))
          st
      else (st, [])
    ifftSymbolDone cfg frame fl
  else some (st, [], false)

/-- The `kIFFT` case of the master loop over the tag list; `goto finish`
abandons the remaining tags. -/
def handleIfft (cfg : Config) :
    List (Nat × Nat) → AgoraState → List OutEv → Option (AgoraState × List OutEv × Bool)
  | [], st, out => some (st, out, false)
  | t :: rest, st, out =>
    match handleIfftTag cfg st t.1 t.2 with
    | none => none
    | some (st, out1, stop) =>
      if stop then some (st, out ++ out1, true)
      else handleIfft cfg rest st (out ++ out1)

/-- The `kPacketTX` case of the master loop: the last TX task and symbol of
a frame check frame completion. -/
def handlePacketTX (cfg : Config) (st : AgoraState) (frame symbol : Nat) :
    Option (AgoraState × List OutEv × Bool) :=
  let (tc, lastTxTask) := st.txCounters.completeTask frame symbol
  let st := { st with txCounters := tc }
  if lastTxTask then
    let (tc2, lastTxSymbol) := st.txCounters.completeSymbol frame
    let st := { st with txCounters := tc2 }
    if lastTxSymbol then
      match checkFrameComplete cfg st frame with
      | none => none
      | some (st, out, workFinished) => some (st, out, workFinished)
    else some (st, [], false)
  else some (st, [], false)

/-- The per-tag `fft_created_count_` accounting of the FFT dispatch at the
bottom of the master loop; on the last created FFT task of a frame, in
bigstation mode, contribute `kUplinkComplete` for the current schedule
frame. -/
def fftCreatedStep (cfg : Config) (st : AgoraState) : Option AgoraState :=
  let st := { st with fftCreatedCount := st.fftCreatedCount + 1 }
  if st.fftCreatedCount = cfg.numPktsPerFrame then
    let st := { st with fftCreatedCount := 0 }
    if cfg.bigstationMode then
      checkIncrementScheduleFrame cfg st st.curScheFrame kUplinkComplete
    else some st
  else some st

/-- The opportunistic FFT dispatch at the bottom of the master loop: when
the backlog of the current schedule frame's slot holds at least
`FftBlockSize` tags, dispatch `size / FftBlockSize` blocks of
`FftBlockSize` tags from its front (the slot is the one of
`cur_sche_frame_id_` at entry, as in the source, even if the schedule
frame advances through the bigstation accounting mid-loop). -/
def drainFft (cfg : Config) (st : AgoraState) : Option (AgoraState × List OutEv) :=
  let slot := st.curScheFrame % kFrameWnd
  let q := st.fftQueue slot
  if q.length ≥ cfg.fftBlockSize then
    let numFftBlocks := q.length / cfg.fftBlockSize
    let popped := q.take (numFftBlocks * cfg.fftBlockSize)
    let st := { st with
      fftQueue := updQ st.fftQueue slot (q.drop (numFftBlocks * cfg.fftBlockSize)) }
    match popped.foldlM (fun s _ => fftCreatedStep cfg s) st with
    | none => none
    | some st =>
      let out := (List.range numFftBlocks).map fun i =>
        ⟨.kFFT, (popped.getD (i * cfg.fftBlockSize) (0, 0)).1,
          (popped.getD (i * cfg.fftBlockSize) (0, 0)).2, cfg.fftBlockSize⟩
      some (st, out)
  else some (st, [])

/-- The event switch of `Agora::Start` on a dequeued event; the `Bool`
records `goto finish`. -/
def dispatch (cfg : Config) (st : AgoraState) (e : Ev) :
    Option (AgoraState × List OutEv × Bool) :=
  match e with
  | .packetRX frame symbol =>
    if frame ≥ st.curScheFrame + kFrameWnd then
      some ({ st with running := false }, [], false)
    else
      let res := updateRxCounters cfg st frame symbol
      let slot := frame % kFrameWnd
      some ({ res.1 with
        fftQueue := updQ res.1.fftQueue slot
          (res.1.fftQueue slot ++ [(frame, symbol)]) }, res.2, false)
  | .fft tags =>
    let r := handleFft cfg tags st
    some (r.1, r.2, false)
  | .zf tags =>
    let r := handleZf cfg tags st
    some (r.1, r.2, false)
  | .demul frame symbol =>
    (handleDemul cfg st frame symbol).map fun r => (r.1, r.2, false)
  | .decode frame symbol => handleDecode cfg st frame symbol
  | .packetToMac frame symbol => handleToMac cfg st frame symbol
  | .packetFromMac frame =>
    let r := handleFromMac cfg st frame
    some (r.1, r.2, false)
  | .encode tags =>
    let r := handleEncode cfg tags st
    some (r.1, r.2, false)
  | .precode frame symbol =>
    let r := handlePrecode cfg st frame symbol
    some (r.1, r.2, false)
  | .ifft tags => handleIfft cfg tags st []
  | .packetTX frame symbol => handlePacketTX cfg st frame symbol

/-- One iteration of the master loop: dispatch on the dequeued event, then
(unless `goto finish` fired) the FFT-backlog drain at the bottom of the
loop body. -/
def step (cfg : Config) (st : AgoraState) (e : Ev) :
    Option (AgoraState × List OutEv) :=
  match dispatch cfg st e with
  | none => none
  | some (st, out, workFinished) =>
    if workFinished then
      some ({ st with running := false }, out)
    else
      match drainFft cfg st with
      | none => none
      | some (st, out2) => some (st, out ++ out2)

/-- Run the master loop over a sequence of dequeued events, discarding the
dispatch lists (the ghost fields of the state retain the histories the
theorems need). -/
def run (cfg : Config) (st : AgoraState) (evs : List Ev) : Option AgoraState :=
  evs.foldlM (fun s e => (step cfg s e).map Prod.fst) st

/-! Concrete configurations and event traces used to instantiate the
theorems: a minimal uplink-only configuration, a downlink-only one, and a
downlink-only one with one client downlink pilot symbol.  All use one
antenna, one user, and block/batch sizes of one. -/

/-- Uplink-only configuration: one pilot symbol (0), one uplink symbol
(1), no downlink symbols. -/
def cfgU : Config where
  bsAntNum := 1
  ueAntNum := 1
  fftBlockSize := 1
  zfEventsPerSymbol := 1
  zfBlockSize := 1
  zfBatchSize := 1
  demulEventsPerSymbol := 1
  demulBlockSize := 1
  encodeBlockSize := 1
  numBlocksInSymbol := 1
  socketThreadNum := 1
  numChannels := 1
  framesToTest := 10
  enableMac := false
  bigstationMode := false
  isRecCalEnabled := false
  pilotSyms := [0]
  ulSyms := [1]
  dlSyms := []
  calDlSyms := []
  calUlSyms := []
  clientDlPilotSyms := 0

/-- Downlink-only configuration with one client downlink pilot symbol:
one pilot symbol (0), downlink symbols 1 (client pilot) and 2 (data). -/
def cfgP : Config := { cfgU with ulSyms := [], dlSyms := [1, 2], clientDlPilotSyms := 1 }

/-- Downlink-only configuration: one pilot symbol (0), downlink data
symbols 1 and 2. -/
def cfgD : Config := { cfgP with clientDlPilotSyms := 0 }

/-- The uplink-only configuration in bigstation mode. -/
def cfgB : Config := { cfgU with bigstationMode := true }

/-- A MAC-enabled variant of the downlink-only configuration. -/
def cfgM : Config := { cfgD with enableMac := true }

/-- The full uplink pipeline of one frame under `cfgU`, without the Decode
completions: its packets, FFT completions, the ZF completion and the Demul
completion. -/
def frameEvsU (f : Nat) : List Ev :=
  [.packetRX f 0, .packetRX f 1, .fft [(f, 0)], .zf [f], .fft [(f, 1)], .demul f 1]

/-- Three uplink frames processed back to back while no Decode completion
ever arrives, so no frame retires. -/
def traceC3 : List Ev := frameEvsU 0 ++ frameEvsU 1 ++ frameEvsU 2

/-- A state of `cfgU` in which frame 0 satisfies the frame-completion
condition: all Decode symbols counted complete (the IFFT and TX counters
of an uplink-only configuration are never initialized, so their
last-symbol test holds vacuously, exactly as in the source). -/
def stC2 : AgoraState :=
  { initState cfgU with
    decodeCounters :=
      { (initState cfgU).decodeCounters with
          symbolCount := fun sl => if sl = 0 then 1 else 0 } }

/-- A state of `cfgD` in which frame 0 satisfies the frame-completion
condition while exactly one deferred frame, frame 1, sits in
`encode_deferral_`. -/
def stC6 : AgoraState :=
  { initState cfgD with
    ifftCounters :=
      { (initState cfgD).ifftCounters with
          symbolCount := fun sl => if sl = 0 then 2 else 0 },
    txCounters :=
      { (initState cfgD).txCounters with
          symbolCount := fun sl => if sl = 0 then 2 else 0 },
    encodeDeferral := [1] }

/-- The ZF-trigger condition checked by the pilot branch of
`HandleEventFft`: the completed task is the last FFT task of the pilot
symbol, reciprocal calibration (when enabled) has already finished frame
`f`, and the symbol is the last pilot symbol of the frame. -/
def zfTriggerCond (cfg : Config) (st : AgoraState) (f s : Nat) : Prop :=
  cfg.symbolType s = SymbolType.Pilot ∧
  (st.pilotFftCounters.completeTask f s).2 = true ∧
  (cfg.isRecCalEnabled = false ∨
    (cfg.isRecCalEnabled = true ∧ st.rcLastFrame = some f)) ∧
  ((st.pilotFftCounters.completeTask f s).1.completeSymbol f).2 = true

instance (cfg : Config) (st : AgoraState) (f s : Nat) :
    Decidable (zfTriggerCond cfg st f s) := by
  unfold zfTriggerCond; infer_instance

/-- The Demul direct-dispatch condition checked by the uplink branch of
`HandleEventFft`: the completed task is the last FFT task of the uplink
symbol and ZF for the frame has already finished (`zf_last_frame == f`). -/
def demulTriggerCond (cfg : Config) (st : AgoraState) (f s : Nat) : Prop :=
  cfg.symbolType s = SymbolType.UL ∧
  (st.uplinkFftCounters.completeTask f s).2 = true ∧
  st.zfLastFrame = some f

instance (cfg : Config) (st : AgoraState) (f s : Nat) :
    Decidable (demulTriggerCond cfg st f s) := by
  unfold demulTriggerCond; infer_instance

/-! The C3 development: the schedule/processing frame bookkeeping of the
master loop, projected out of the full state. -/

/-- The four fields of `AgoraState` that the schedule-frame bookkeeping
reads and writes: `cur_sche_frame_id_`, `cur_proc_frame_id_`, the schedule
flags, and the ghost log of `CheckIncrementScheduleFrame` contributions. -/
structure Sched where
  sche : Nat
  proc : Nat
  flags : Nat
  log : List (Nat × Nat)
  deriving DecidableEq, Repr

def schedOf (st : AgoraState) : Sched :=
  ⟨st.curScheFrame, st.curProcFrame, st.scheduleFlags, st.flagLog⟩

/-- `CheckIncrementScheduleFrame` on the projection. -/
def ciSched (cfg : Config) (q : Sched) (frame completed : Nat) : Option Sched :=
  let q2 : Sched := ⟨q.sche, q.proc, q.flags + completed, q.log ++ [(frame, completed)]⟩
  if q2.sche = frame then
    if q2.flags = kProcessingComplete then
      some ⟨q2.sche + 1, q2.proc, presetFlags cfg, q2.log⟩
    else
      some q2
  else
    none

/-- The moves the master loop performs on the schedule projection: an
`kUplinkComplete` contribution, a `kDownlinkComplete` contribution for the
current processing frame, and a processing-frame retirement. -/
inductive SchedStep (cfg : Config) : Sched → Sched → Prop where
  | refl (q : Sched) : SchedStep cfg q q
  | up {q q' r : Sched} (frame : Nat)
      (h1 : ciSched cfg q frame kUplinkComplete = some q')
      (h2 : SchedStep cfg q' r) : SchedStep cfg q r
  | down {q q' r : Sched} (frame : Nat) (hpf : frame = q.proc)
      (h1 : ciSched cfg q frame kDownlinkComplete = some q')
      (h2 : SchedStep cfg q' r) : SchedStep cfg q r
  | procAdv {q r : Sched}
      (h2 : SchedStep cfg ⟨q.sche, q.proc + 1, q.flags, q.log⟩ r) :
      SchedStep cfg q r

/-- A log that already records two `kUplinkComplete` or two
`kDownlinkComplete` contributions for the same frame. -/
def c3Bad (q : Sched) : Prop :=
  ∃ f, 2 ≤ q.log.count (f, kUplinkComplete) ∨
    2 ≤ q.log.count (f, kDownlinkComplete)

/-- The inductive invariant of the schedule projection (for configurations
with both uplink and downlink symbols, so that `presetFlags` is zero): the
schedule frame is at most one ahead of the processing frame, and the flags
value records which single contributions of the current schedule frame
arrived — `kDownlinkComplete` pins the schedule frame at or below the
processing frame because its call sites require `frame == cur_proc_frame`. -/
def c3Inv (q : Sched) : Prop :=
  q.sche ≤ q.proc + 1 ∧
  (q.flags = 0 ∨
   (q.flags = kUplinkComplete ∧ 1 ≤ q.log.count (q.sche, kUplinkComplete)) ∨
   (q.flags = kDownlinkComplete ∧ q.sche ≤ q.proc ∧
     1 ≤ q.log.count (q.sche, kDownlinkComplete)))

/-- Bidirectional configuration used to instantiate the C3 theorem: one
pilot symbol (0), one uplink symbol (1), one downlink data symbol (2). -/
def cfgUD : Config := { cfgU with dlSyms := [2] }


/-- The C4 invariant for a single-frame downlink IFFT/TX phase of frame
`F`: the dispatched TX history is exactly the downlink symbols of indices
`0..k` in order; `ifft_next_symbol_` equals `k` (or was reset to 0);
dispatched indices have their IFFT rendezvous entry set; a set rendezvous
entry records that the symbol's last IFFT task already fired (so it cannot
fire again); and the TX counter of the frame is still empty (the frame
cannot retire during the phase). -/
def c4Inv (cfg : Config) (F : Nat) (st : AgoraState) : Prop :=
  st.ifftCounters.maxTask = cfg.bsAntNum ∧
  st.ifftCurFrameForSymbol.length = cfg.numDLSyms ∧
  st.txCounters.getSymbolCount F = 0 ∧
  st.txCounters.maxSymbol = cfg.numDLSyms ∧
  (∀ s, s ∈ cfg.dlSyms →
    st.ifftCurFrameForSymbol.getD (cfg.getDLSymbolIdx s) none = some F →
    cfg.bsAntNum ≤ st.ifftCounters.getTaskCount F s) ∧
  ∃ k, k ≤ cfg.numDLSyms ∧
    st.txHist = (List.range k).map (fun i => (F, cfg.getDLSymbol i)) ∧
    (st.ifftNextSymbol = k ∨ st.ifftNextSymbol = 0) ∧
    (∀ i, i < k → st.ifftCurFrameForSymbol.getD i none = some F)

/-! Helper lemmas: which state fields the bookkeeping functions leave
untouched. -/

theorem ci_untouched {cfg : Config} {st st' : AgoraState} {frame completed : Nat}
    (h : checkIncrementScheduleFrame cfg st frame completed = some st') :
    st'.running = st.running ∧ st'.rxNumPkts = st.rxNumPkts ∧
    st'.rxNumPilotPkts = st.rxNumPilotPkts ∧
    st'.rxNumReciprocityPkts = st.rxNumReciprocityPkts ∧
    st'.fftQueue = st.fftQueue := by
  simp only [checkIncrementScheduleFrame] at h
  split at h
  · split at h
    · simp only [Option.some.injEq] at h
      subst h
      exact ⟨rfl, rfl, rfl, rfl, rfl⟩
    · simp only [Option.some.injEq] at h
      subst h
      exact ⟨rfl, rfl, rfl, rfl, rfl⟩
  · exact absurd h (by simp)

theorem fftCreatedStep_untouched {cfg : Config} {st st' : AgoraState}
    (h : fftCreatedStep cfg st = some st') :
    st'.running = st.running ∧ st'.rxNumPkts = st.rxNumPkts ∧
    st'.rxNumPilotPkts = st.rxNumPilotPkts ∧
    st'.rxNumReciprocityPkts = st.rxNumReciprocityPkts ∧
    st'.fftQueue = st.fftQueue := by
  simp only [fftCreatedStep] at h
  split at h
  · split at h
    · obtain ⟨a, b, c, d, e⟩ := ci_untouched h
      exact ⟨a.trans rfl, b.trans rfl, c.trans rfl, d.trans rfl, e.trans rfl⟩
    · simp only [Option.some.injEq] at h
      subst h
      exact ⟨rfl, rfl, rfl, rfl, rfl⟩
  · simp only [Option.some.injEq] at h
    subst h
    exact ⟨rfl, rfl, rfl, rfl, rfl⟩

theorem foldCreated_untouched {cfg : Config} :
    ∀ (l : List (Nat × Nat)) {st st' : AgoraState},
    l.foldlM (fun s _ => fftCreatedStep cfg s) st = some st' →
    st'.running = st.running ∧ st'.rxNumPkts = st.rxNumPkts ∧
    st'.rxNumPilotPkts = st.rxNumPilotPkts ∧
    st'.rxNumReciprocityPkts = st.rxNumReciprocityPkts ∧
    st'.fftQueue = st.fftQueue := by
  intro l
  induction l with
  | nil =>
    intro st st' h
    simp only [List.foldlM_nil, Option.pure_def, Option.some.injEq] at h
    subst h
    exact ⟨rfl, rfl, rfl, rfl, rfl⟩
  | cons a t ih =>
    intro st st' h
    rw [List.foldlM_cons] at h
    cases hs : fftCreatedStep cfg st with
    | none => rw [hs] at h; exact absurd h (by simp)
    | some s =>
      rw [hs] at h
      simp only [Option.bind_eq_bind, Option.some_bind] at h
      obtain ⟨r1, r2, r3, r4, r5⟩ := ih h
      obtain ⟨s1, s2, s3, s4, s5⟩ := fftCreatedStep_untouched hs
      exact ⟨r1.trans s1, r2.trans s2, r3.trans s3, r4.trans s4, r5.trans s5⟩

theorem drainFft_untouched {cfg : Config} {st st' : AgoraState} {out : List OutEv}
    (h : drainFft cfg st = some (st', out)) :
    st'.running = st.running ∧ st'.rxNumPkts = st.rxNumPkts ∧
    st'.rxNumPilotPkts = st.rxNumPilotPkts ∧
    st'.rxNumReciprocityPkts = st.rxNumReciprocityPkts ∧
    ∀ sl, ∃ n, st'.fftQueue sl = (st.fftQueue sl).drop n := by
  simp only [drainFft] at h
  split at h
  · split at h
    · exact absurd h (by simp)
    · rename_i stMid hfold
      simp only [Option.some.injEq, Prod.mk.injEq] at h
      obtain ⟨h1, _⟩ := h
      subst h1
      obtain ⟨r1, r2, r3, r4, r5⟩ := foldCreated_untouched _ hfold
      refine ⟨r1.trans rfl, r2.trans rfl, r3.trans rfl, r4.trans rfl, fun sl => ?_⟩
      rw [r5]
      by_cases hsl : sl = st.curScheFrame % kFrameWnd
      · subst hsl
        refine ⟨(st.fftQueue (st.curScheFrame % kFrameWnd)).length / cfg.fftBlockSize *
          cfg.fftBlockSize, ?_⟩
        simp [updQ]
      · refine ⟨0, ?_⟩
        simp [updQ, hsl]
  · simp only [Option.some.injEq, Prod.mk.injEq] at h
    obtain ⟨h1, _⟩ := h
    subst h1
    exact ⟨rfl, rfl, rfl, rfl, fun sl => ⟨0, rfl⟩⟩

/-- C9: an RX packet at or beyond `cur_sche_frame_id_ + kFrameWnd` stops
the system (`Running(false)`) and receives no further processing: none of
the three RX counters changes at any frame slot and no tag is pushed onto
any FFT backlog slot (the opportunistic FFT dispatch can only consume
already-backlogged tags). -/
theorem c9_future_frame_fatal (cfg : Config) (st : AgoraState)
    (frame symbol : Nat) (st' : AgoraState) (out : List OutEv)
    (hstep : step cfg st (.packetRX frame symbol) = some (st', out))
    (hge : frame ≥ st.curScheFrame + kFrameWnd) :
    st'.running = false ∧ st'.rxNumPkts = st.rxNumPkts ∧
    st'.rxNumPilotPkts = st.rxNumPilotPkts ∧
    st'.rxNumReciprocityPkts = st.rxNumReciprocityPkts ∧
    ∀ sl, ∃ n, st'.fftQueue sl = (st.fftQueue sl).drop n := by
  simp only [step, dispatch] at hstep
  rw [if_pos hge] at hstep
  simp only [Bool.false_eq_true, if_false] at hstep
  cases hd : drainFft cfg { st with running := false } with
  | none => rw [hd] at hstep; exact absurd hstep (by simp)
  | some p =>
    rw [hd] at hstep
    simp only [Option.some.injEq, Prod.mk.injEq] at hstep
    obtain ⟨h1, _⟩ := hstep
    subst h1
    obtain ⟨r1, r2, r3, r4, r5⟩ := drainFft_untouched
      (show drainFft cfg { st with running := false } = some (p.1, p.2) by rw [hd])
    exact ⟨r1, r2, r3, r4, r5⟩

/-! `ScheduleDownlinkProcessing` changes nothing in the state but the
encode rendezvous table. -/

theorem sdpPilotFold_state (cfg : Config) (frame : Nat) :
    ∀ (l : List Nat) (st : AgoraState) (acc : List OutEv),
    ∃ l2, (l.foldl (sdpPilotStep cfg frame) (st, acc)).1 =
      { st with encodeCurFrameForSymbol := l2 } := by
  intro l
  induction l with
  | nil =>
    intro st acc
    exact ⟨st.encodeCurFrameForSymbol, rfl⟩
  | cons a t ih =>
    intro st acc
    rw [List.foldl_cons]
    simp only [sdpPilotStep]
    split
    · exact ih st _
    · obtain ⟨l2, h2⟩ := ih
        { st with encodeCurFrameForSymbol := st.encodeCurFrameForSymbol.set a (some frame) }
        acc
      exact ⟨l2, h2.trans rfl⟩

theorem sdp_state (cfg : Config) (st : AgoraState) (frame : Nat) :
    ∃ l2, (scheduleDownlinkProcessing cfg st frame).1 =
      { st with encodeCurFrameForSymbol := l2 } := by
  obtain ⟨l2, h⟩ :=
    sdpPilotFold_state cfg frame (List.range cfg.clientDlPilotSyms) st []
  refine ⟨l2, ?_⟩
  simp only [scheduleDownlinkProcessing]
  rcases hf : (List.range cfg.clientDlPilotSyms).foldl (sdpPilotStep cfg frame) (st, [])
    with ⟨s, o⟩
  rw [hf] at h
  exact h

theorem drainDeferral_proc (cfg : Config) :
    ∀ (fuel : Nat) (st : AgoraState) (out : List OutEv) (st' : AgoraState)
      (out' : List OutEv),
    drainDeferral cfg fuel st out = some (st', out') →
    st'.curProcFrame = st.curProcFrame := by
  intro fuel
  induction fuel with
  | zero =>
    intro st out st' out' h
    simp only [drainDeferral, Option.some.injEq, Prod.mk.injEq] at h
    rw [← h.1]
  | succ n ih =>
    intro st out st' out' h
    simp only [drainDeferral] at h
    split at h
    · exact absurd h (by simp)
    · rename_i f rest hdef
      split at h
      · split at h
        · have hrec := ih _ _ _ _ h
          obtain ⟨l2, hs⟩ := sdp_state cfg st f
          exact hrec.trans (by rw [hs])
        · exact absurd h (by simp)
      · simp only [Option.some.injEq, Prod.mk.injEq] at h
        rw [← h.1]

/-- C2 (amended): `CheckFrameComplete(F)` retires the frame (advances
`cur_proc_frame_id_`) exactly when the completion condition — IFFT
last-symbol, TX last-symbol, and Decode last-symbol without MAC / MAC-TX
last-symbol with MAC — holds, but it returns `true` exactly when the
condition holds AND `F = FramesToTest - 1`. -/
theorem c2_check_frame_complete_return (cfg : Config) (st : AgoraState)
    (frame : Nat) (st' : AgoraState) (out : List OutEv) (fin : Bool)
    (h : checkFrameComplete cfg st frame = some (st', out, fin)) :
    (fin = true ↔ (frameCompleteCond cfg st frame ∧ frame = cfg.framesToTest - 1)) ∧
    (frameCompleteCond cfg st frame → st'.curProcFrame = st.curProcFrame + 1) ∧
    (¬ frameCompleteCond cfg st frame →
      st'.curProcFrame = st.curProcFrame ∧ fin = false) := by
  simp only [checkFrameComplete] at h
  split at h
  · rename_i hcond
    split at h
    · rename_i hframe
      split at h
      · exact absurd h (by simp)
      · rename_i p hdrain
        simp only [Option.some.injEq, Prod.mk.injEq] at h
        obtain ⟨hst, hout, hfin⟩ := h
        subst hst
        refine ⟨?_, fun _ => ?_, fun hc => absurd hcond hc⟩
        · rw [← hfin]
          simp [hcond, decide_eq_true_eq]
        · split at hdrain
          · have := drainDeferral_proc cfg _ _ _ _ _ hdrain
            rw [this]
          · simp only [Option.some.injEq, Prod.mk.injEq] at hdrain
            rw [← hdrain.1]
    · exact absurd h (by simp)
  · rename_i hcond
    simp only [Option.some.injEq, Prod.mk.injEq] at h
    obtain ⟨hst, hout, hfin⟩ := h
    subst hst
    refine ⟨?_, fun hc => absurd hc hcond, fun _ => ⟨rfl, hfin.symm⟩⟩
    rw [← hfin]
    simp [hcond]

/-- Witness for C2 at a concrete input: under `cfgU` in the completion
state `stC2`, `CheckFrameComplete(0)` succeeds and returns `false` (frame
0 is not `FramesToTest - 1 = 9`). -/
theorem c2_check_frame_complete_return_witness :
    ((checkFrameComplete cfgU stC2 0).map fun p => p.2.2) = some false := by
  cases h : checkFrameComplete cfgU stC2 0 with
  | none =>
    have hs : (checkFrameComplete cfgU stC2 0).isSome = true := by decide
    rw [h] at hs
    exact absurd hs (by simp)
  | some p =>
    have h2 := (c2_check_frame_complete_return cfgU stC2 0 p.1 p.2.1 p.2.2
      (by rw [h])).1
    have hne : p.2.2 ≠ true := by
      intro ht
      exact absurd (h2.mp ht).2 (by decide)
    simp only [Option.map_some']
    simp only [Bool.not_eq_true] at hne
    rw [hne]

/-- Counterexample for C2 as stated: in the state `stC2` all three
completion conditions of frame 0 hold, yet `CheckFrameComplete(0)` returns
`false`, because frame 0 is not `FramesToTest - 1`. -/
theorem c2_counterexample :
    frameCompleteCond cfgU stC2 0 ∧
    ((checkFrameComplete cfgU stC2 0).map fun p => p.2.2) = some false := by
  constructor
  · decide
  · decide

/-- C6: evaluation at the failing input.  In state `stC6` frame 0 is
complete and `encode_deferral_` holds exactly one eligible frame; the
drain loop pops it and then, in its second iteration, takes the front of
the now-empty `std::queue` — undefined behaviour, modelled as failure. -/
theorem c6_empty_front_ub :
    frameCompleteCond cfgD stC6 0 ∧ stC6.encodeDeferral = [1] ∧
    (checkFrameComplete cfgD stC6 0).isSome = false := by
  refine ⟨by decide, by decide, by decide⟩

/-- Witness for C9 at a concrete input: under `cfgU`, from the initial
state, an RX packet for frame 8 (= `cur_sche_frame_id_ + kFrameWnd`) sets
`running` to false. -/
theorem c9_future_frame_fatal_witness :
    ((step cfgU (initState cfgU) (.packetRX 8 0)).map fun p => p.1.running) =
      some false := by
  cases h : step cfgU (initState cfgU) (.packetRX 8 0) with
  | none =>
    have hs : (step cfgU (initState cfgU) (.packetRX 8 0)).isSome = true := by decide
    rw [h] at hs
    exact absurd hs (by simp)
  | some p =>
    have := (c9_future_frame_fatal cfgU (initState cfgU) 8 0 p.1 p.2
      (by rw [h]) (by decide)).1
    simp [h, this]

/-! Membership facts about the dispatch helpers. -/

theorem blockedDispatch_mem {et : EvType} {f s n b : Nat} {o : OutEv}
    (h : o ∈ blockedDispatch et f s n b) :
    o.etype = et ∧ o.frame = f ∧ o.symbol = s := by
  simp only [blockedDispatch, List.mem_map] at h
  obtain ⟨i, _, rfl⟩ := h
  exact ⟨rfl, rfl, rfl⟩

theorem scheduleCodeblocks_mem {cfg : Config} {et : EvType} {f s : Nat} {o : OutEv}
    (h : o ∈ scheduleCodeblocks cfg et f s) :
    o.etype = et ∧ o.frame = f ∧ o.symbol = s :=
  blockedDispatch_mem h

theorem scheduleAntennas_mem {cfg : Config} {et : EvType} {f s : Nat} {o : OutEv}
    (h : o ∈ scheduleAntennas cfg et f s) :
    o.etype = et ∧ o.frame = f ∧ o.symbol = s :=
  blockedDispatch_mem h

theorem scheduleSubcarriers_mem {cfg : Config} {et : EvType} {f s : Nat} {o : OutEv}
    (h : o ∈ scheduleSubcarriers cfg et f s) :
    o.etype = et ∧ o.frame = f ∧ o.symbol = s := by
  unfold scheduleSubcarriers at h
  match et, h with
  | .kZF, h => exact blockedDispatch_mem h
  | .kFFT, h | .kDemul, h | .kDecode, h | .kEncode, h | .kPrecode, h | .kIFFT, h
  | .kPacketTX, h | .kPacketToMac, h =>
    rw [List.eq_of_mem_replicate h]
    exact ⟨rfl, rfl, rfl⟩

theorem scheduleAntennasTX_mem {cfg : Config} {f s : Nat} {o : OutEv}
    (h : o ∈ scheduleAntennasTX cfg f s) :
    o.etype = .kPacketTX ∧ o.frame = f ∧ o.symbol = s := by
  simp only [scheduleAntennasTX, List.mem_flatMap] at h
  obtain ⟨i, _, hm⟩ := h
  rw [List.eq_of_mem_replicate hm]
  exact ⟨rfl, rfl, rfl⟩

theorem scheduleUsers_mem {cfg : Config} {f s : Nat} {o : OutEv}
    (h : o ∈ scheduleUsers cfg f s) :
    o.etype = .kPacketToMac ∧ o.frame = f ∧ o.symbol = s := by
  rw [List.eq_of_mem_replicate h]
  exact ⟨rfl, rfl, rfl⟩

theorem drainFft_mem {cfg : Config} {st st' : AgoraState} {out : List OutEv}
    (h : drainFft cfg st = some (st', out)) :
    ∀ o ∈ out, o.etype = .kFFT := by
  simp only [drainFft] at h
  split at h
  · split at h
    · exact absurd h (by simp)
    · simp only [Option.some.injEq, Prod.mk.injEq] at h
      obtain ⟨_, h2⟩ := h
      subst h2
      intro o ho
      simp only [List.mem_map] at ho
      obtain ⟨i, _, rfl⟩ := ho
      rfl
  · simp only [Option.some.injEq, Prod.mk.injEq] at h
    obtain ⟨_, h2⟩ := h
    subst h2
    intro o ho
    exact absurd ho (List.not_mem_nil o)

theorem drainFft_filter_ne {cfg : Config} {st st' : AgoraState} {out : List OutEv}
    {p : OutEv → Bool} (h : drainFft cfg st = some (st', out))
    (hp : ∀ o : OutEv, o.etype = .kFFT → p o = false) :
    out.filter p = [] := by
  refine List.filter_eq_nil_iff.mpr fun o ho => ?_
  rw [hp o (drainFft_mem h o ho)]
  exact Bool.false_ne_true

/-- C10: when a Demul completion is the last task of its symbol and the
last Demul symbol of frame F, the Decode codeblocks of (F, s) are
dispatched twice in bigstation mode (once by the last-task branch, once by
the last-symbol branch) and exactly once otherwise; a Demul completion
that is not the last task of its symbol dispatches no Decode work. -/
theorem c10_bigstation_double_decode (cfg : Config) (st : AgoraState)
    (frame symbol : Nat) (st' : AgoraState) (out : List OutEv)
    (h : step cfg st (.demul frame symbol) = some (st', out)) :
    ((st.demulCounters.completeTask frame symbol).2 = true →
      (((st.demulCounters.completeTask frame symbol).1.completeSymbol frame).2 = true →
        cfg.bigstationMode = true →
        out.filter (fun o => o.etype == EvType.kDecode) =
          scheduleCodeblocks cfg .kDecode frame symbol ++
            scheduleCodeblocks cfg .kDecode frame symbol) ∧
      ((((st.demulCounters.completeTask frame symbol).1.completeSymbol frame).2 = false ∨
          cfg.bigstationMode = false) →
        out.filter (fun o => o.etype == EvType.kDecode) =
          scheduleCodeblocks cfg .kDecode frame symbol)) ∧
    ((st.demulCounters.completeTask frame symbol).2 = false →
      out.filter (fun o => o.etype == EvType.kDecode) = []) := by
  simp only [step, dispatch] at h
  cases hd : handleDemul cfg st frame symbol with
  | none => rw [hd] at h; exact absurd h (by simp)
  | some p =>
    rw [hd] at h
    simp only [Option.map_some', Bool.false_eq_true, if_false] at h
    cases hdr : drainFft cfg p.1 with
    | none => rw [hdr] at h; exact absurd h (by simp)
    | some q =>
      rw [hdr] at h
      simp only [Option.some.injEq, Prod.mk.injEq] at h
      obtain ⟨h1, h2⟩ := h
      subst h2
      have hq : (q.2).filter (fun o => o.etype == EvType.kDecode) = [] :=
        drainFft_filter_ne hdr (by intro o he; rw [he]; rfl)
      have hdec : ∀ fr sy, (scheduleCodeblocks cfg .kDecode fr sy).filter
          (fun o => o.etype == EvType.kDecode) = scheduleCodeblocks cfg .kDecode fr sy := by
        intro fr sy
        refine List.filter_eq_self.mpr fun o ho => ?_
        rw [(scheduleCodeblocks_mem ho).1]
        rfl
      rw [List.filter_append, hq, List.append_nil]
      simp only [handleDemul] at hd
      split at hd
      · rename_i hlast
        split at hd
        · rename_i hsym
          split at hd
          · rename_i hnotbig
            split at hd
            · exact absurd hd (by simp)
            · simp only [Option.some.injEq] at hd
              subst hd
              refine ⟨fun _ => ⟨fun _ hb => ?_, fun _ => hdec _ _⟩, fun hf => ?_⟩
              · exact Bool.noConfusion (hnotbig.symm.trans hb)
              · exact Bool.noConfusion (hf.symm.trans hlast)
          · rename_i hbigne
            simp only [Option.some.injEq] at hd
            subst hd
            refine ⟨fun _ => ⟨fun _ _ => ?_, fun hc => ?_⟩, fun hf => ?_⟩
            · rw [List.filter_append, hdec]
            · rcases hc with hc | hc
              · exact Bool.noConfusion (hc.symm.trans hsym)
              · exact absurd hc hbigne
            · exact Bool.noConfusion (hf.symm.trans hlast)
        · rename_i hsymn
          simp only [Option.some.injEq] at hd
          subst hd
          refine ⟨fun _ => ⟨fun hs _ => absurd hs hsymn, fun _ => hdec _ _⟩, fun hf => ?_⟩
          exact Bool.noConfusion (hf.symm.trans hlast)
      · rename_i hlast
        simp only [Option.some.injEq] at hd
        subst hd
        exact ⟨fun ht => absurd ht hlast, fun _ => List.filter_nil _⟩

/-- Witness for C10 at a concrete input: under the bigstation
configuration `cfgB`, the Demul completion (0, 1) is last task and last
symbol, and the step dispatches the Decode codeblocks twice. -/
theorem c10_bigstation_double_decode_witness :
    ((step cfgB (initState cfgB) (.demul 0 1)).map fun p =>
      p.2.filter (fun o => o.etype == EvType.kDecode)) =
      some (scheduleCodeblocks cfgB .kDecode 0 1 ++ scheduleCodeblocks cfgB .kDecode 0 1) := by
  cases h : step cfgB (initState cfgB) (.demul 0 1) with
  | none =>
    have hs : (step cfgB (initState cfgB) (.demul 0 1)).isSome = true := by decide
    rw [h] at hs
    exact absurd hs (by simp)
  | some p =>
    have h2 := ((c10_bigstation_double_decode cfgB (initState cfgB) 0 1 p.1 p.2
      (by rw [h])).1 (by decide)).1 (by decide) (by decide)
    simp only [Option.map_some']
    rw [h2]

/-! Structural characterizations: what each bookkeeping function can
change in the state. -/

theorem ci_state {cfg : Config} {st st' : AgoraState} {frame completed : Nat}
    (h : checkIncrementScheduleFrame cfg st frame completed = some st') :
    ∃ fl sc lg, st' =
      { st with scheduleFlags := fl, curScheFrame := sc, flagLog := lg } := by
  simp only [checkIncrementScheduleFrame] at h
  split at h
  · split at h
    · simp only [Option.some.injEq] at h
      subst h
      exact ⟨_, _, _, rfl⟩
    · simp only [Option.some.injEq] at h
      subst h
      exact ⟨_, _, _, rfl⟩
  · exact absurd h (by simp)

theorem fftCreatedStep_state {cfg : Config} {st st' : AgoraState}
    (h : fftCreatedStep cfg st = some st') :
    ∃ c fl sc lg, st' = { st with fftCreatedCount := c, scheduleFlags := fl, curScheFrame := sc, flagLog := lg } := by
  simp only [fftCreatedStep] at h
  split at h
  · split at h
    · obtain ⟨fl, sc, lg, he⟩ := ci_state h
      exact ⟨0, fl, sc, lg, he.trans rfl⟩
    · simp only [Option.some.injEq] at h
      subst h
      exact ⟨_, _, _, _, rfl⟩
  · simp only [Option.some.injEq] at h
    subst h
    exact ⟨_, _, _, _, rfl⟩

theorem foldCreated_state {cfg : Config} :
    ∀ (l : List (Nat × Nat)) {st st' : AgoraState},
    l.foldlM (fun s _ => fftCreatedStep cfg s) st = some st' →
    ∃ c fl sc lg, st' = { st with fftCreatedCount := c, scheduleFlags := fl, curScheFrame := sc, flagLog := lg } := by
  intro l
  induction l with
  | nil =>
    intro st st' h
    simp only [List.foldlM_nil, Option.pure_def, Option.some.injEq] at h
    subst h
    exact ⟨st.fftCreatedCount, st.scheduleFlags, st.curScheFrame, st.flagLog, rfl⟩
  | cons a t ih =>
    intro st st' h
    rw [List.foldlM_cons] at h
    cases hs : fftCreatedStep cfg st with
    | none => rw [hs] at h; exact absurd h (by simp)
    | some s =>
      rw [hs] at h
      simp only [Option.bind_eq_bind, Option.some_bind] at h
      obtain ⟨c1, fl1, sc1, lg1, he1⟩ := fftCreatedStep_state hs
      obtain ⟨c2, fl2, sc2, lg2, he2⟩ := ih h
      subst he1
      exact ⟨c2, fl2, sc2, lg2, he2.trans rfl⟩

theorem drainFft_state {cfg : Config} {st st' : AgoraState} {out : List OutEv}
    (h : drainFft cfg st = some (st', out)) :
    ∃ q c fl sc lg, st' = { st with fftQueue := q, fftCreatedCount := c, scheduleFlags := fl, curScheFrame := sc, flagLog := lg } := by
  simp only [drainFft] at h
  split at h
  · split at h
    · exact absurd h (by simp)
    · rename_i stMid hfold
      simp only [Option.some.injEq, Prod.mk.injEq] at h
      obtain ⟨h1, _⟩ := h
      subst h1
      obtain ⟨c, fl, sc, lg, he⟩ := foldCreated_state _ hfold
      exact ⟨_, c, fl, sc, lg, he.trans rfl⟩
  · simp only [Option.some.injEq, Prod.mk.injEq] at h
    obtain ⟨h1, _⟩ := h
    subst h1
    exact ⟨st.fftQueue, st.fftCreatedCount, st.scheduleFlags, st.curScheFrame,
      st.flagLog, rfl⟩

theorem rxPacketTypeCount_state (cfg : Config) (st : AgoraState)
    (frame symbol : Nat) :
    ∃ p r, rxPacketTypeCount cfg st frame symbol =
      { st with rxNumPilotPkts := p, rxNumReciprocityPkts := r } := by
  simp only [rxPacketTypeCount]
  split
  · exact ⟨_, st.rxNumReciprocityPkts, rfl⟩
  · split
    · exact ⟨st.rxNumPilotPkts, _, rfl⟩
    · exact ⟨st.rxNumPilotPkts, st.rxNumReciprocityPkts, rfl⟩

/-! The dispatch output of `ScheduleDownlinkProcessing` depends only on
`zf_last_frame_`, and consists of Precode and Encode events only. -/

theorem sdpPilotFold_out_congr (cfg : Config) (frame : Nat) :
    ∀ (l : List Nat) (st1 st2 : AgoraState) (acc : List OutEv),
    st1.zfLastFrame = st2.zfLastFrame →
    (l.foldl (sdpPilotStep cfg frame) (st1, acc)).2 =
      (l.foldl (sdpPilotStep cfg frame) (st2, acc)).2 := by
  intro l
  induction l with
  | nil => intro st1 st2 acc _; rfl
  | cons a t ih =>
    intro st1 st2 acc h
    rw [List.foldl_cons, List.foldl_cons]
    simp only [sdpPilotStep]
    rw [h]
    split
    · exact ih st1 st2 _ h
    · exact ih _ _ acc rfl

theorem sdp_out_congr (cfg : Config) (frame : Nat) (st1 st2 : AgoraState)
    (h : st1.zfLastFrame = st2.zfLastFrame) :
    (scheduleDownlinkProcessing cfg st1 frame).2 =
      (scheduleDownlinkProcessing cfg st2 frame).2 := by
  simp only [scheduleDownlinkProcessing]
  have hc := sdpPilotFold_out_congr cfg frame (List.range cfg.clientDlPilotSyms)
    st1 st2 [] h
  rcases hf1 : (List.range cfg.clientDlPilotSyms).foldl (sdpPilotStep cfg frame)
    (st1, []) with ⟨s1, o1⟩
  rcases hf2 : (List.range cfg.clientDlPilotSyms).foldl (sdpPilotStep cfg frame)
    (st2, []) with ⟨s2, o2⟩
  rw [hf1, hf2] at hc
  simp only at hc
  simp only [hc]

theorem sdpPilotFold_out_mem (cfg : Config) (frame : Nat) :
    ∀ (l : List Nat) (st : AgoraState) (acc : List OutEv) (o : OutEv),
    o ∈ (l.foldl (sdpPilotStep cfg frame) (st, acc)).2 →
    o ∈ acc ∨ o.etype = .kPrecode := by
  intro l
  induction l with
  | nil => intro st acc o ho; exact .inl ho
  | cons a t ih =>
    intro st acc o ho
    rw [List.foldl_cons] at ho
    simp only [sdpPilotStep] at ho
    split at ho
    · rcases ih st _ o ho with hm | he
      · rcases List.mem_append.mp hm with hm | hm
        · exact .inl hm
        · exact .inr (scheduleSubcarriers_mem hm).1
      · exact .inr he
    · exact ih _ acc o ho

theorem sdp_out_mem {cfg : Config} {st : AgoraState} {frame : Nat} {o : OutEv}
    (ho : o ∈ (scheduleDownlinkProcessing cfg st frame).2) :
    o.etype = .kPrecode ∨ o.etype = .kEncode := by
  simp only [scheduleDownlinkProcessing] at ho
  rcases hf : (List.range cfg.clientDlPilotSyms).foldl (sdpPilotStep cfg frame)
    (st, []) with ⟨s1, o1⟩
  rw [hf] at ho
  simp only [List.mem_append] at ho
  rcases ho with ho | ho
  · have := sdpPilotFold_out_mem cfg frame (List.range cfg.clientDlPilotSyms) st [] o
      (by rw [hf]; exact ho)
    rcases this with hm | he
    · exact absurd hm (List.not_mem_nil o)
    · exact .inl he
  · simp only [List.mem_flatMap] at ho
    obtain ⟨i, _, hm⟩ := ho
    exact .inr (scheduleCodeblocks_mem hm).1

/-! The two downlink triggers of `UpdateRxCounters` (no-MAC first packet)
and the `kPacketFromMac` handler. -/

theorem updateRxCounters_defer (cfg : Config) (st : AgoraState)
    (frame symbol : Nat) (hmac : cfg.enableMac = false)
    (hfirst : st.rxNumPkts (frame % kFrameWnd) = 0)
    (hdefer : st.encodeDeferral ≠ [] ∨ frame ≥ st.curProcFrame + kScheduleQueues) :
    (updateRxCounters cfg st frame symbol).1.encodeDeferral =
      st.encodeDeferral ++ [frame] ∧
    (updateRxCounters cfg st frame symbol).2 = [] := by
  obtain ⟨p, r, hrx⟩ := rxPacketTypeCount_state cfg st frame symbol
  simp only [updateRxCounters, hrx]
  rw [if_pos hfirst, if_pos hmac, if_pos hdefer]
  exact ⟨rfl, rfl⟩

theorem updateRxCounters_dispatch (cfg : Config) (st : AgoraState)
    (frame symbol : Nat) (hmac : cfg.enableMac = false)
    (hfirst : st.rxNumPkts (frame % kFrameWnd) = 0)
    (hnodefer : ¬(st.encodeDeferral ≠ [] ∨ frame ≥ st.curProcFrame + kScheduleQueues)) :
    (updateRxCounters cfg st frame symbol).1.encodeDeferral = st.encodeDeferral ∧
    (updateRxCounters cfg st frame symbol).2 =
      (scheduleDownlinkProcessing cfg st frame).2 := by
  obtain ⟨p, r, hrx⟩ := rxPacketTypeCount_state cfg st frame symbol
  simp only [updateRxCounters, hrx]
  rw [if_pos hfirst, if_pos hmac, if_neg hnodefer]
  obtain ⟨l2, hs⟩ := sdp_state cfg
    { st with rxNumPilotPkts := p, rxNumReciprocityPkts := r } frame
  constructor
  · rw [hs]
  · exact sdp_out_congr cfg frame
      { st with rxNumPilotPkts := p, rxNumReciprocityPkts := r } st rfl

theorem sdp_filter_dl (cfg : Config) (st : AgoraState) (frame : Nat) :
    ((scheduleDownlinkProcessing cfg st frame).2).filter
      (fun o => o.etype == EvType.kEncode || o.etype == EvType.kPrecode) =
    (scheduleDownlinkProcessing cfg st frame).2 := by
  refine List.filter_eq_self.mpr fun o ho => ?_
  rcases sdp_out_mem ho with he | he <;> rw [he] <;> rfl

/-- C5: both downlink-encoding triggers — the first RX packet of a frame
in no-MAC mode, and the last `kPacketFromMac` completion of a frame in
MAC mode — defer the frame (push onto `encode_deferral_`, dispatching no
Encode or Precode work) exactly when the deferral queue is non-empty or
`frame ≥ cur_proc_frame_id_ + kScheduleQueues`, and otherwise invoke
`ScheduleDownlinkProcessing(frame)` immediately, leaving the deferral
queue unchanged. -/
theorem c5_encode_trigger_deferral (cfg : Config) (st : AgoraState) (frame : Nat) :
    (∀ symbol st' out,
      step cfg st (.packetRX frame symbol) = some (st', out) →
      cfg.enableMac = false →
      ¬ frame ≥ st.curScheFrame + kFrameWnd →
      st.rxNumPkts (frame % kFrameWnd) = 0 →
      ((st.encodeDeferral ≠ [] ∨ frame ≥ st.curProcFrame + kScheduleQueues) →
        st'.encodeDeferral = st.encodeDeferral ++ [frame] ∧
        out.filter (fun o => o.etype == EvType.kEncode || o.etype == EvType.kPrecode)
          = []) ∧
      (¬ (st.encodeDeferral ≠ [] ∨ frame ≥ st.curProcFrame + kScheduleQueues) →
        st'.encodeDeferral = st.encodeDeferral ∧
        out.filter (fun o => o.etype == EvType.kEncode || o.etype == EvType.kPrecode)
          = (scheduleDownlinkProcessing cfg st frame).2)) ∧
    (∀ st' out,
      step cfg st (.packetFromMac frame) = some (st', out) →
      (st.macToPhyCounters.completeTask frame 0).2 = true →
      ((st.encodeDeferral ≠ [] ∨ frame ≥ st.curProcFrame + kScheduleQueues) →
        st'.encodeDeferral = st.encodeDeferral ++ [frame] ∧
        out.filter (fun o => o.etype == EvType.kEncode || o.etype == EvType.kPrecode)
          = []) ∧
      (¬ (st.encodeDeferral ≠ [] ∨ frame ≥ st.curProcFrame + kScheduleQueues) →
        st'.encodeDeferral = st.encodeDeferral ∧
        out.filter (fun o => o.etype == EvType.kEncode || o.etype == EvType.kPrecode)
          = (scheduleDownlinkProcessing cfg st frame).2)) := by
  constructor
  · intro symbol st' out hstep hmac hfatal hfirst
    simp only [step, dispatch] at hstep
    rw [if_neg hfatal] at hstep
    simp only [Bool.false_eq_true, if_false] at hstep
    split at hstep
    · exact absurd hstep (by simp)
    · rename_i a b hdr
      simp only [Option.some.injEq, Prod.mk.injEq] at hstep
      obtain ⟨hst, hout⟩ := hstep
      subst hst
      subst hout
      have hq : b.filter
          (fun o => o.etype == EvType.kEncode || o.etype == EvType.kPrecode) = [] :=
        drainFft_filter_ne hdr (by intro o he; rw [he]; rfl)
      obtain ⟨qq, cc, fl, sc, lg, hqs⟩ := drainFft_state hdr
      constructor
      · intro hdefer
        obtain ⟨hd1, hd2⟩ := updateRxCounters_defer cfg st frame symbol hmac hfirst hdefer
        constructor
        · rw [hqs]
          exact hd1
        · rw [List.filter_append, hd2, hq]
          rfl
      · intro hnd
        obtain ⟨hd1, hd2⟩ :=
          updateRxCounters_dispatch cfg st frame symbol hmac hfirst hnd
        constructor
        · rw [hqs]
          exact hd1
        · rw [List.filter_append, hd2, sdp_filter_dl, hq, List.append_nil]
  · intro st' out hstep hlast
    simp only [step, dispatch, handleFromMac] at hstep
    rw [if_pos hlast] at hstep
    simp only [Bool.false_eq_true, if_false] at hstep
    by_cases hdefer : st.encodeDeferral ≠ [] ∨ frame ≥ st.curProcFrame + kScheduleQueues
    · rw [if_pos hdefer] at hstep
      split at hstep
      · exact absurd hstep (by simp)
      · rename_i a b hdr
        simp only [Option.some.injEq, Prod.mk.injEq] at hstep
        obtain ⟨hst, hout⟩ := hstep
        subst hst
        subst hout
        have hq : b.filter
            (fun o => o.etype == EvType.kEncode || o.etype == EvType.kPrecode) = [] :=
          drainFft_filter_ne hdr (by intro o he; rw [he]; rfl)
        obtain ⟨qq, cc, fl, sc, lg, hqs⟩ := drainFft_state hdr
        refine ⟨fun _ => ⟨?_, ?_⟩, fun hnd => absurd hdefer hnd⟩
        · rw [hqs]
        · rw [List.filter_append, hq, List.append_nil]
          rfl
    · rw [if_neg hdefer] at hstep
      split at hstep
      · exact absurd hstep (by simp)
      · rename_i a b hdr
        simp only [Option.some.injEq, Prod.mk.injEq] at hstep
        obtain ⟨hst, hout⟩ := hstep
        subst hst
        subst hout
        have hq : b.filter
            (fun o => o.etype == EvType.kEncode || o.etype == EvType.kPrecode) = [] :=
          drainFft_filter_ne hdr (by intro o he; rw [he]; rfl)
        obtain ⟨qq, cc, fl, sc, lg, hqs⟩ := drainFft_state hdr
        obtain ⟨l2, hs⟩ := sdp_state cfg
          { st with macToPhyCounters := (st.macToPhyCounters.completeTask frame 0).1 }
          frame
        refine ⟨fun hd => absurd hd hdefer, fun _ => ⟨?_, ?_⟩⟩
        · rw [hqs, hs]
        · rw [List.filter_append, hq, List.append_nil]
          have hcg := sdp_out_congr cfg frame
            { st with macToPhyCounters := (st.macToPhyCounters.completeTask frame 0).1 }
            st rfl
          rw [← hcg]
          exact sdp_filter_dl cfg _ frame

/-- Witness for C5 at a concrete input: under `cfgD`, the first RX packet
of frame 0 is not deferred — the deferral queue stays empty and the
downlink dispatches of `ScheduleDownlinkProcessing(0)` are emitted. -/
theorem c5_encode_trigger_deferral_witness :
    ((step cfgD (initState cfgD) (.packetRX 0 0)).map fun p =>
      (p.1.encodeDeferral,
        p.2.filter (fun o => o.etype == EvType.kEncode || o.etype == EvType.kPrecode))) =
    some ([], (scheduleDownlinkProcessing cfgD (initState cfgD) 0).2) := by
  cases h : step cfgD (initState cfgD) (.packetRX 0 0) with
  | none =>
    have hs : (step cfgD (initState cfgD) (.packetRX 0 0)).isSome = true := by decide
    rw [h] at hs
    exact absurd hs (by simp)
  | some p =>
    have h2 := ((c5_encode_trigger_deferral cfgD (initState cfgD) 0).1 0 p.1 p.2
      (by rw [h]) (by decide) (by decide) (by decide)).2 (by decide)
    simp only [Option.map_some']
    rw [h2.1, h2.2]
    rfl

/-! Which event types each handler can dispatch. -/

theorem foldPair_out_mem {α : Type} (f : AgoraState × List OutEv → α → AgoraState × List OutEv)
    (P : OutEv → Prop)
    (hf : ∀ acc a o, o ∈ (f acc a).2 → o ∈ acc.2 ∨ P o) :
    ∀ (l : List α) (acc : AgoraState × List OutEv) (o : OutEv),
    o ∈ (l.foldl f acc).2 → o ∈ acc.2 ∨ P o := by
  intro l
  induction l with
  | nil => intro acc o ho; exact .inl ho
  | cons a t ih =>
    intro acc o ho
    rw [List.foldl_cons] at ho
    rcases ih (f acc a) o ho with hm | hp
    · exact hf acc a o hm
    · exact .inr hp

theorem handleEventFft_out_mem (cfg : Config) (st : AgoraState) (f s : Nat) :
    ∀ o ∈ (handleEventFft cfg st f s).2, o.etype = .kZF ∨ o.etype = .kDemul := by
  intro o ho
  simp only [handleEventFft] at ho
  split at ho <;>
    (repeat' (first | split at ho | dsimp only at ho)) <;>
    first
      | exact absurd ho (List.not_mem_nil o)
      | exact .inl (scheduleSubcarriers_mem ho).1
      | exact .inr (scheduleSubcarriers_mem ho).1

theorem handleFft_out_mem (cfg : Config) (tags : List (Nat × Nat)) (st : AgoraState) :
    ∀ o ∈ (handleFft cfg tags st).2, o.etype = .kZF ∨ o.etype = .kDemul := by
  intro o ho
  simp only [handleFft] at ho
  rcases foldPair_out_mem _ (fun o => o.etype = .kZF ∨ o.etype = .kDemul)
    (fun acc a o hm => by
      rcases List.mem_append.mp hm with hm | hm
      · exact .inl hm
      · exact .inr (handleEventFft_out_mem cfg acc.1 a.1 a.2 o hm))
    tags (st, []) o ho with hm | hp
  · exact absurd hm (List.not_mem_nil o)
  · exact hp

theorem handleZfTag_out_mem (cfg : Config) (st : AgoraState) (f : Nat) :
    ∀ o ∈ (handleZfTag cfg st f).2, o.etype = .kDemul ∨ o.etype = .kPrecode := by
  intro o ho
  simp only [handleZfTag] at ho
  split at ho
  · rcases List.mem_append.mp ho with ho | ho
    · simp only [List.mem_flatMap] at ho
      obtain ⟨i, _, hm⟩ := ho
      split at hm
      · exact .inl (scheduleSubcarriers_mem hm).1
      · exact absurd hm (List.not_mem_nil o)
    · simp only [List.mem_flatMap] at ho
      obtain ⟨i, _, hm⟩ := ho
      split at hm
      · split at hm
        · exact .inr (scheduleSubcarriers_mem hm).1
        · exact absurd hm (List.not_mem_nil o)
      · exact absurd hm (List.not_mem_nil o)
  · exact absurd ho (List.not_mem_nil o)

theorem handleZf_out_mem (cfg : Config) (tags : List Nat) (st : AgoraState) :
    ∀ o ∈ (handleZf cfg tags st).2, o.etype = .kDemul ∨ o.etype = .kPrecode := by
  intro o ho
  simp only [handleZf] at ho
  rcases foldPair_out_mem _ (fun o => o.etype = .kDemul ∨ o.etype = .kPrecode)
    (fun acc a o hm => by
      rcases List.mem_append.mp hm with hm | hm
      · exact .inl hm
      · exact .inr (handleZfTag_out_mem cfg acc.1 a o hm))
    tags (st, []) o ho with hm | hp
  · exact absurd hm (List.not_mem_nil o)
  · exact hp

theorem handleEncodeTag_out_mem (cfg : Config) (st : AgoraState) (f s : Nat) :
    ∀ o ∈ (handleEncodeTag cfg st f s).2, o.etype = .kPrecode := by
  intro o ho
  simp only [handleEncodeTag] at ho
  split at ho <;>
    (repeat' (first | split at ho | dsimp only at ho)) <;>
    first
      | exact absurd ho (List.not_mem_nil o)
      | exact (scheduleSubcarriers_mem ho).1

theorem handleEncode_out_mem (cfg : Config) (tags : List (Nat × Nat)) (st : AgoraState) :
    ∀ o ∈ (handleEncode cfg tags st).2, o.etype = .kPrecode := by
  intro o ho
  simp only [handleEncode] at ho
  rcases foldPair_out_mem _ (fun o => o.etype = .kPrecode)
    (fun acc a o hm => by
      rcases List.mem_append.mp hm with hm | hm
      · exact .inl hm
      · exact .inr (handleEncodeTag_out_mem cfg acc.1 a.1 a.2 o hm))
    tags (st, []) o ho with hm | hp
  · exact absurd hm (List.not_mem_nil o)
  · exact hp

theorem drainDeferral_out_mem (cfg : Config) :
    ∀ (fuel : Nat) (st : AgoraState) (out0 : List OutEv) (st' : AgoraState)
      (out' : List OutEv),
    drainDeferral cfg fuel st out0 = some (st', out') →
    ∀ o ∈ out', o ∈ out0 ∨ o.etype = .kPrecode ∨ o.etype = .kEncode := by
  intro fuel
  induction fuel with
  | zero =>
    intro st out0 st' out' h o ho
    simp only [drainDeferral, Option.some.injEq, Prod.mk.injEq] at h
    obtain ⟨_, h2⟩ := h
    subst h2
    exact .inl ho
  | succ n ih =>
    intro st out0 st' out' h o ho
    simp only [drainDeferral] at h
    split at h
    · exact absurd h (by simp)
    · split at h
      · split at h
        · rcases ih _ _ _ _ h o ho with hm | hp
          · rcases List.mem_append.mp hm with hm | hm
            · exact .inl hm
            · exact .inr (sdp_out_mem hm)
          · exact .inr hp
        · exact absurd h (by simp)
      · simp only [Option.some.injEq, Prod.mk.injEq] at h
        obtain ⟨_, h2⟩ := h
        subst h2
        exact .inl ho

theorem cfc_out_mem {cfg : Config} {st : AgoraState} {frame : Nat}
    {st' : AgoraState} {out : List OutEv} {fin : Bool}
    (h : checkFrameComplete cfg st frame = some (st', out, fin)) :
    ∀ o ∈ out, o.etype = .kPrecode ∨ o.etype = .kEncode := by
  intro o ho
  simp only [checkFrameComplete] at h
  split at h
  · split at h
    · split at h
      · exact absurd h (by simp)
      · rename_i p hdr
        simp only [Option.some.injEq, Prod.mk.injEq] at h
        obtain ⟨_, h2, _⟩ := h
        subst h2
        split at hdr
        · rcases drainDeferral_out_mem cfg _ _ _ _ _ hdr o ho with hm | hp
          · exact absurd hm (List.not_mem_nil o)
          · exact hp
        · simp only [Option.some.injEq, Prod.mk.injEq] at hdr
          obtain ⟨_, h3⟩ := hdr
          rw [← h3] at ho
          exact absurd ho (List.not_mem_nil o)
    · exact absurd h (by simp)
  · simp only [Option.some.injEq, Prod.mk.injEq] at h
    obtain ⟨_, h2, _⟩ := h
    subst h2
    exact absurd ho (List.not_mem_nil o)

theorem handleDemul_out_mem {cfg : Config} {st : AgoraState} {f s : Nat}
    {st' : AgoraState} {out : List OutEv}
    (h : handleDemul cfg st f s = some (st', out)) :
    ∀ o ∈ out, o.etype = .kDecode := by
  intro o ho
  simp only [handleDemul] at h
  split at h
  · split at h
    · split at h
      · split at h
        · exact absurd h (by simp)
        · simp only [Option.some.injEq, Prod.mk.injEq] at h
          obtain ⟨_, h2⟩ := h
          subst h2
          exact (scheduleCodeblocks_mem ho).1
      · simp only [Option.some.injEq, Prod.mk.injEq] at h
        obtain ⟨_, h2⟩ := h
        subst h2
        rcases List.mem_append.mp ho with hm | hm
        · exact (scheduleCodeblocks_mem hm).1
        · exact (scheduleCodeblocks_mem hm).1
    · simp only [Option.some.injEq, Prod.mk.injEq] at h
      obtain ⟨_, h2⟩ := h
      subst h2
      exact (scheduleCodeblocks_mem ho).1
  · simp only [Option.some.injEq, Prod.mk.injEq] at h
    obtain ⟨_, h2⟩ := h
    subst h2
    exact absurd ho (List.not_mem_nil o)

theorem handleDecode_out_mem {cfg : Config} {st : AgoraState} {f s : Nat}
    {st' : AgoraState} {out : List OutEv} {stp : Bool}
    (h : handleDecode cfg st f s = some (st', out, stp)) :
    ∀ o ∈ out, o.etype = .kPacketToMac ∨ o.etype = .kPrecode ∨ o.etype = .kEncode := by
  intro o ho
  have hmac : ∀ o' : OutEv,
      o' ∈ (if cfg.enableMac = true then scheduleUsers cfg f s else []) →
      o'.etype = .kPacketToMac := by
    intro o' ho'
    split at ho'
    · exact (scheduleUsers_mem ho').1
    · exact absurd ho' (List.not_mem_nil o')
  simp only [handleDecode] at h
  split at h
  · split at h
    · split at h
      · split at h
        · split at h
          · exact absurd h (by simp)
          · rename_i q hq
            simp only [Option.some.injEq, Prod.mk.injEq] at h
            obtain ⟨_, h2, _⟩ := h
            subst h2
            rcases List.mem_append.mp ho with hm | hm
            · exact .inl (hmac o hm)
            · exact .inr (cfc_out_mem hq o hm)
        · exact absurd h (by simp)
      · simp only [Option.some.injEq, Prod.mk.injEq] at h
        obtain ⟨_, h2, _⟩ := h
        subst h2
        exact .inl (hmac o ho)
    · simp only [Option.some.injEq, Prod.mk.injEq] at h
      obtain ⟨_, h2, _⟩ := h
      subst h2
      exact .inl (hmac o ho)
  · simp only [Option.some.injEq, Prod.mk.injEq] at h
    obtain ⟨_, h2, _⟩ := h
    subst h2
    exact absurd ho (List.not_mem_nil o)

theorem handleToMac_out_mem {cfg : Config} {st : AgoraState} {f s : Nat}
    {st' : AgoraState} {out : List OutEv} {stp : Bool}
    (h : handleToMac cfg st f s = some (st', out, stp)) :
    ∀ o ∈ out, o.etype = .kPrecode ∨ o.etype = .kEncode := by
  intro o ho
  simp only [handleToMac] at h
  split at h
  · split at h
    · split at h
      · split at h
        · exact absurd h (by simp)
        · rename_i q hq
          simp only [Option.some.injEq, Prod.mk.injEq] at h
          obtain ⟨_, h2, _⟩ := h
          subst h2
          exact cfc_out_mem hq o ho
      · exact absurd h (by simp)
    · simp only [Option.some.injEq, Prod.mk.injEq] at h
      obtain ⟨_, h2, _⟩ := h
      subst h2
      exact absurd ho (List.not_mem_nil o)
  · simp only [Option.some.injEq, Prod.mk.injEq] at h
    obtain ⟨_, h2, _⟩ := h
    subst h2
    exact absurd ho (List.not_mem_nil o)

theorem handleFromMac_out_mem (cfg : Config) (st : AgoraState) (f : Nat) :
    ∀ o ∈ (handleFromMac cfg st f).2, o.etype = .kPrecode ∨ o.etype = .kEncode := by
  intro o ho
  simp only [handleFromMac] at ho
  split at ho
  · split at ho
    · exact absurd ho (List.not_mem_nil o)
    · exact sdp_out_mem ho
  · exact absurd ho (List.not_mem_nil o)

theorem handlePrecode_out_mem (cfg : Config) (st : AgoraState) (f s : Nat) :
    ∀ o ∈ (handlePrecode cfg st f s).2, o.etype = .kIFFT := by
  intro o ho
  simp only [handlePrecode] at ho
  split at ho
  · exact (scheduleAntennas_mem ho).1
  · exact absurd ho (List.not_mem_nil o)

theorem txFlush_out_mem (cfg : Config) (frame : Nat) :
    ∀ (l : List Nat) (st : AgoraState),
    ∀ o ∈ (txFlush cfg frame l st).2, o.etype = .kPacketTX := by
  intro l
  induction l with
  | nil => intro st o ho; exact absurd ho (List.not_mem_nil o)
  | cons a t ih =>
    intro st o ho
    simp only [txFlush] at ho
    split at ho
    · rcases List.mem_append.mp ho with hm | hm
      · exact (scheduleAntennasTX_mem hm).1
      · exact ih _ o hm
    · exact absurd ho (List.not_mem_nil o)

theorem ifftSymbolDone_out_mem {cfg : Config} {f : Nat} {fl : AgoraState × List OutEv}
    {st' : AgoraState} {out : List OutEv} {stp : Bool}
    (h : ifftSymbolDone cfg f fl = some (st', out, stp)) :
    ∀ o ∈ out, o ∈ fl.2 ∨ o.etype = .kPrecode ∨ o.etype = .kEncode := by
  intro o ho
  simp only [ifftSymbolDone] at h
  split at h
  · split at h
    · split at h
      · exact absurd h (by simp)
      · split at h
        · exact absurd h (by simp)
        · rename_i q hq
          simp only [Option.some.injEq, Prod.mk.injEq] at h
          obtain ⟨_, h2, _⟩ := h
          subst h2
          rcases List.mem_append.mp ho with hm | hm
          · exact .inl hm
          · exact .inr (cfc_out_mem hq o hm)
    · exact absurd h (by simp)
  · simp only [Option.some.injEq, Prod.mk.injEq] at h
    obtain ⟨_, h2, _⟩ := h
    subst h2
    exact .inl ho

theorem handleIfftTag_out_mem {cfg : Config} {st : AgoraState} {f s : Nat}
    {st' : AgoraState} {out : List OutEv} {stp : Bool}
    (h : handleIfftTag cfg st f s = some (st', out, stp)) :
    ∀ o ∈ out, o.etype = .kPacketTX ∨ o.etype = .kPrecode ∨ o.etype = .kEncode := by
  intro o ho
  simp only [handleIfftTag] at h
  split at h
  · rcases ifftSymbolDone_out_mem h o ho with hm | hp
    · refine .inl ?_
      revert hm
      split
      · intro hm; exact txFlush_out_mem cfg f _ _ o hm
      · intro hm; exact absurd hm (List.not_mem_nil o)
    · exact .inr hp
  · simp only [Option.some.injEq, Prod.mk.injEq] at h
    obtain ⟨_, h2, _⟩ := h
    subst h2
    exact absurd ho (List.not_mem_nil o)

theorem handleIfft_out_mem {cfg : Config} :
    ∀ (tags : List (Nat × Nat)) (st : AgoraState) (out0 : List OutEv)
      (st' : AgoraState) (out : List OutEv) (stp : Bool),
    handleIfft cfg tags st out0 = some (st', out, stp) →
    ∀ o ∈ out, o ∈ out0 ∨ o.etype = .kPacketTX ∨ o.etype = .kPrecode ∨
      o.etype = .kEncode := by
  intro tags
  induction tags with
  | nil =>
    intro st out0 st' out stp h o ho
    simp only [handleIfft, Option.some.injEq, Prod.mk.injEq] at h
    obtain ⟨_, h2, _⟩ := h
    subst h2
    exact .inl ho
  | cons a t ih =>
    intro st out0 st' out stp h o ho
    simp only [handleIfft] at h
    split at h
    · exact absurd h (by simp)
    · rename_i p hp
      split at h
      · simp only [Option.some.injEq, Prod.mk.injEq] at h
        obtain ⟨_, h2, _⟩ := h
        subst h2
        rcases List.mem_append.mp ho with hm | hm
        · exact .inl hm
        · exact .inr (handleIfftTag_out_mem hp o hm)
      · rcases ih _ _ _ _ _ h o ho with hm | hp2
        · rcases List.mem_append.mp hm with hm | hm
          · exact .inl hm
          · exact .inr (handleIfftTag_out_mem hp o hm)
        · exact .inr hp2

theorem handlePacketTX_out_mem {cfg : Config} {st : AgoraState} {f s : Nat}
    {st' : AgoraState} {out : List OutEv} {stp : Bool}
    (h : handlePacketTX cfg st f s = some (st', out, stp)) :
    ∀ o ∈ out, o.etype = .kPrecode ∨ o.etype = .kEncode := by
  intro o ho
  simp only [handlePacketTX] at h
  split at h
  · split at h
    · split at h
      · exact absurd h (by simp)
      · rename_i q hq
        simp only [Option.some.injEq, Prod.mk.injEq] at h
        obtain ⟨_, h2, _⟩ := h
        subst h2
        exact cfc_out_mem hq o ho
    · simp only [Option.some.injEq, Prod.mk.injEq] at h
      obtain ⟨_, h2, _⟩ := h
      subst h2
      exact absurd ho (List.not_mem_nil o)
  · simp only [Option.some.injEq, Prod.mk.injEq] at h
    obtain ⟨_, h2, _⟩ := h
    subst h2
    exact absurd ho (List.not_mem_nil o)

theorem updateRxCounters_out_mem (cfg : Config) (st : AgoraState) (f s : Nat) :
    ∀ o ∈ (updateRxCounters cfg st f s).2,
      o.etype = .kPrecode ∨ o.etype = .kEncode := by
  intro o ho
  simp only [updateRxCounters] at ho
  split at ho
  · split at ho
    · split at ho
      · exact absurd ho (List.not_mem_nil o)
      · exact sdp_out_mem ho
    · exact absurd ho (List.not_mem_nil o)
  · exact absurd ho (List.not_mem_nil o)

theorem blockedDispatch_ntags {et : EvType} {f s n b : Nat} (hb : 0 < b) :
    (blockedDispatch et f s n b).map OutEv.ntags =
      List.replicate (n / b) b ++ (if n % b = 0 then [] else [n % b]) := by
  simp only [blockedDispatch, List.map_map]
  by_cases hr : n % b = 0
  · rw [if_pos hr, if_neg (by omega : ¬n % b > 0), List.append_nil]
    refine List.eq_replicate_iff.mpr ⟨by simp, ?_⟩
    intro x hx
    simp only [List.mem_map, List.mem_range] at hx
    obtain ⟨i, hi, rfl⟩ := hx
    simp [hr]
  · rw [if_neg hr, if_pos (by omega : n % b > 0), List.range_succ, List.map_append]
    congr 1
    · refine List.eq_replicate_iff.mpr ⟨by simp, ?_⟩
      intro x hx
      simp only [List.mem_map, List.mem_range] at hx
      obtain ⟨i, hi, rfl⟩ := hx
      simp only [Function.comp_apply, ite_eq_right_iff, and_imp]
      intro h1 h2
      omega
    · have hqq : (n / b + 1) - 1 = n / b := rfl
      simp [hqq, Nat.pos_of_ne_zero hr]

theorem filter_zf_schedule (cfg : Config) (f : Nat) :
    (scheduleSubcarriers cfg EvType.kZF f 0).filter
      (fun o => decide (o.etype = EvType.kZF)) =
      scheduleSubcarriers cfg EvType.kZF f 0 :=
  List.filter_eq_self.mpr fun o ho => by
    simp [(scheduleSubcarriers_mem ho).1]

theorem filter_zf_none {l : List OutEv}
    (h : ∀ o ∈ l, o.etype ≠ EvType.kZF) :
    l.filter (fun o => decide (o.etype = EvType.kZF)) = [] :=
  List.filter_eq_nil_iff.mpr fun o ho => by simp [h o ho]

theorem handleEventFft_zf_filter (cfg : Config) (st : AgoraState) (f s : Nat) :
    (handleEventFft cfg st f s).2.filter (fun o => decide (o.etype = EvType.kZF)) =
      (if zfTriggerCond cfg st f s then scheduleSubcarriers cfg EvType.kZF f 0
       else []) := by
  by_cases hz : zfTriggerCond cfg st f s
  · rw [if_pos hz]
    obtain ⟨hp, h1, h2, h3⟩ := hz
    simp only [handleEventFft, hp]
    rw [if_pos h1, if_pos h2, if_pos h3]
    exact filter_zf_schedule cfg f
  · rw [if_neg hz]
    simp only [zfTriggerCond] at hz
    cases hst : cfg.symbolType s with
    | Pilot =>
      simp only [handleEventFft, hst]
      by_cases h1 : (st.pilotFftCounters.completeTask f s).2 = true
      · rw [if_pos h1]
        by_cases h2 : cfg.isRecCalEnabled = false ∨
            (cfg.isRecCalEnabled = true ∧ st.rcLastFrame = some f)
        · rw [if_pos h2]
          by_cases h3 : ((st.pilotFftCounters.completeTask f s).1.completeSymbol f).2 = true
          · exact absurd ⟨hst, h1, h2, h3⟩ hz
          · rw [if_neg h3]
            rfl
        · rw [if_neg h2]
          rfl
      · rw [if_neg h1]
        rfl
    | UL =>
      simp only [handleEventFft, hst]
      by_cases h1 : (st.uplinkFftCounters.completeTask f s).2 = true
      · rw [if_pos h1]
        refine filter_zf_none fun o ho => ?_
        dsimp only at ho
        split at ho
        · rw [(scheduleSubcarriers_mem ho).1]
          decide
        · exact absurd ho (List.not_mem_nil o)
      · rw [if_neg h1]
        rfl
    | CalDL =>
      simp only [handleEventFft, hst]
      by_cases h1 : (st.rcCounters.completeFrameTask f).2 = true
      · rw [if_pos h1]
        rfl
      · rw [if_neg h1]
        rfl
    | CalUL =>
      simp only [handleEventFft, hst]
      by_cases h1 : (st.rcCounters.completeFrameTask f).2 = true
      · rw [if_pos h1]
        rfl
      · rw [if_neg h1]
        rfl
    | DL =>
      simp only [handleEventFft, hst]
      rfl
    | Guard =>
      simp only [handleEventFft, hst]
      rfl

theorem handleFft_single (cfg : Config) (st : AgoraState) (f s : Nat) :
    handleFft cfg [(f, s)] st = handleEventFft cfg st f s := rfl

theorem step_decomp {cfg : Config} {st : AgoraState} {e : Ev} {st' : AgoraState}
    {out : List OutEv} (h : step cfg st e = some (st', out)) :
    ∃ st1 out1 wf, dispatch cfg st e = some (st1, out1, wf) ∧
      ((wf = true ∧ st' = { st1 with running := false } ∧ out = out1) ∨
       (wf = false ∧ ∃ out2, drainFft cfg st1 = some (st', out2) ∧
         out = out1 ++ out2)) := by
  simp only [step] at h
  split at h
  · exact absurd h (by simp)
  · rename_i st1 out1 wf hp
    split at h
    · rename_i hwf
      simp only [Option.some.injEq, Prod.mk.injEq] at h
      exact ⟨st1, out1, wf, hp, .inl ⟨hwf, h.1.symm, h.2.symm⟩⟩
    · rename_i hwf
      have hwf2 : wf = false := by revert hwf; cases wf <;> simp
      split at h
      · exact absurd h (by simp)
      · rename_i st2 out2 hq
        simp only [Option.some.injEq, Prod.mk.injEq] at h
        obtain ⟨h1, h2⟩ := h
        subst h1
        subst h2
        exact ⟨st1, out1, wf, hp, .inr ⟨hwf2, out2, hq, rfl⟩⟩

theorem dispatch_no_zf {cfg : Config} {st : AgoraState} {e : Ev}
    {st1 : AgoraState} {out1 : List OutEv} {wf : Bool}
    (h : dispatch cfg st e = some (st1, out1, wf))
    (he : ∀ tags, e ≠ Ev.fft tags) :
    ∀ o ∈ out1, o.etype ≠ EvType.kZF := by
  intro o ho hzf
  cases e with
  | packetRX f s =>
    simp only [dispatch] at h
    split at h
    · simp only [Option.some.injEq, Prod.mk.injEq] at h
      obtain ⟨-, h2, -⟩ := h
      rw [← h2] at ho
      exact absurd ho (List.not_mem_nil o)
    · simp only [Option.some.injEq, Prod.mk.injEq] at h
      obtain ⟨-, h2, -⟩ := h
      rw [← h2] at ho
      rcases updateRxCounters_out_mem cfg st f s o ho with h2 | h2 <;>
        simp [h2] at hzf
  | fft tags => exact he tags rfl
  | zf tags =>
    simp only [dispatch, Option.some.injEq, Prod.mk.injEq] at h
    obtain ⟨-, h2, -⟩ := h
    rw [← h2] at ho
    rcases handleZf_out_mem cfg tags st o ho with h2 | h2 <;> simp [h2] at hzf
  | demul f s =>
    simp only [dispatch] at h
    cases hd : handleDemul cfg st f s with
    | none =>
      rw [hd] at h
      exact absurd h (by simp)
    | some p =>
      rw [hd] at h
      simp only [Option.map_some', Option.some.injEq, Prod.mk.injEq] at h
      obtain ⟨-, h2, -⟩ := h
      rw [← h2] at ho
      have hdec := handleDemul_out_mem
        (show handleDemul cfg st f s = some (p.1, p.2) by rw [hd]) o ho
      simp [hdec] at hzf
  | decode f s =>
    simp only [dispatch] at h
    rcases handleDecode_out_mem h o ho with h2 | h2 | h2 <;> simp [h2] at hzf
  | packetToMac f s =>
    simp only [dispatch] at h
    rcases handleToMac_out_mem h o ho with h2 | h2 <;> simp [h2] at hzf
  | packetFromMac f =>
    simp only [dispatch, Option.some.injEq, Prod.mk.injEq] at h
    obtain ⟨-, h2, -⟩ := h
    rw [← h2] at ho
    rcases handleFromMac_out_mem cfg st f o ho with h2 | h2 <;> simp [h2] at hzf
  | encode tags =>
    simp only [dispatch, Option.some.injEq, Prod.mk.injEq] at h
    obtain ⟨-, h2, -⟩ := h
    rw [← h2] at ho
    simp [handleEncode_out_mem cfg tags st o ho] at hzf
  | precode f s =>
    simp only [dispatch, Option.some.injEq, Prod.mk.injEq] at h
    obtain ⟨-, h2, -⟩ := h
    rw [← h2] at ho
    simp [handlePrecode_out_mem cfg st f s o ho] at hzf
  | ifft tags =>
    simp only [dispatch] at h
    rcases handleIfft_out_mem tags st [] st1 out1 wf h o ho with h2 | h2 | h2 | h2
    · exact absurd h2 (List.not_mem_nil o)
    all_goals simp [h2] at hzf
  | packetTX f s =>
    simp only [dispatch] at h
    rcases handlePacketTX_out_mem h o ho with h2 | h2 <;> simp [h2] at hzf

/-- C7: ZF for frame `f` is scheduled exactly when an FFT completion event
satisfies the pilot-branch trigger (`zfTriggerCond`): the completed task is
the last pilot-FFT task of its symbol, reciprocal calibration — when
enabled — has already finished frame `f` (`rc_last_frame == f`; with
calibration disabled no such condition), and the symbol completes the pilot
symbols of the frame.  The dispatched ZF work is batched in events of
`ZfBatchSize` subcarrier tags with a final partial batch carrying the
remainder, and no other event of the master loop dispatches ZF work. -/
theorem c7_zf_schedule_iff (cfg : Config) :
    (∀ st f s st' out, step cfg st (Ev.fft [(f, s)]) = some (st', out) →
      out.filter (fun o => decide (o.etype = EvType.kZF)) =
        (if zfTriggerCond cfg st f s then scheduleSubcarriers cfg EvType.kZF f 0
         else [])) ∧
    (∀ st e st' out, (∀ tags, e ≠ Ev.fft tags) →
      step cfg st e = some (st', out) →
      out.filter (fun o => decide (o.etype = EvType.kZF)) = []) ∧
    (∀ f o, o ∈ scheduleSubcarriers cfg EvType.kZF f 0 →
      o.etype = EvType.kZF ∧ o.frame = f) ∧
    (0 < cfg.zfBatchSize → ∀ f,
      (scheduleSubcarriers cfg EvType.kZF f 0).map OutEv.ntags =
        List.replicate (cfg.zfEventsPerSymbol / cfg.zfBatchSize)
          cfg.zfBatchSize ++
        (if cfg.zfEventsPerSymbol % cfg.zfBatchSize = 0 then []
         else [cfg.zfEventsPerSymbol % cfg.zfBatchSize])) := by
  refine ⟨?_, ?_, ?_, ?_⟩
  · intro st f s st' out h
    obtain ⟨st1, out1, wf, hd, hc⟩ := step_decomp h
    simp only [dispatch, Option.some.injEq, Prod.mk.injEq] at hd
    obtain ⟨hd1, hd2, hd3⟩ := hd
    rcases hc with ⟨hwf, -, rfl⟩ | ⟨-, out2, hq, rfl⟩
    · rw [← hd3] at hwf
      exact absurd hwf (by simp)
    · rw [List.filter_append,
        drainFft_filter_ne hq (fun o hfft => by simp [hfft]), List.append_nil,
        ← hd2, handleFft_single]
      exact handleEventFft_zf_filter cfg st f s
  · intro st e st' out he h
    obtain ⟨st1, out1, wf, hd, hc⟩ := step_decomp h
    have h1 : out1.filter (fun o => decide (o.etype = EvType.kZF)) = [] :=
      filter_zf_none (dispatch_no_zf hd he)
    rcases hc with ⟨-, -, rfl⟩ | ⟨-, out2, hq, rfl⟩
    · exact h1
    · rw [List.filter_append, h1, List.nil_append]
      exact drainFft_filter_ne hq (fun o hfft => by simp [hfft])
  · exact fun f o ho =>
      ⟨(scheduleSubcarriers_mem ho).1, (scheduleSubcarriers_mem ho).2.1⟩
  · intro hb f
    exact blockedDispatch_ntags hb

/-- Witness for C7 at a concrete input: under `cfgU`, the FFT completion of
pilot symbol (0,0) triggers exactly the ZF batch dispatch for frame 0. -/
theorem c7_zf_schedule_iff_witness :
    ((step cfgU (initState cfgU) (Ev.fft [(0, 0)])).map
      (fun p => p.2.filter (fun o => decide (o.etype = EvType.kZF)))) =
      some (scheduleSubcarriers cfgU EvType.kZF 0 0) ∧
    0 < cfgU.zfBatchSize := by
  refine ⟨?_, by decide⟩
  cases h : step cfgU (initState cfgU) (Ev.fft [(0, 0)]) with
  | none =>
    have hs : (step cfgU (initState cfgU) (Ev.fft [(0, 0)])).isSome = true := by
      decide
    rw [h] at hs
    exact absurd hs (by simp)
  | some p =>
    have h2 := (c7_zf_schedule_iff cfgU).1 (initState cfgU) 0 0 p.1 p.2 (by rw [h])
    simp only [Option.map_some']
    rw [h2, if_pos (by decide)]

theorem filter_etype_self {cfg : Config} {et : EvType} {f s : Nat} :
    (scheduleSubcarriers cfg et f s).filter (fun o => decide (o.etype = et)) =
      scheduleSubcarriers cfg et f s :=
  List.filter_eq_self.mpr fun o ho => by simp [(scheduleSubcarriers_mem ho).1]

theorem filter_etype_none {l : List OutEv} {et : EvType}
    (h : ∀ o ∈ l, o.etype ≠ et) :
    l.filter (fun o => decide (o.etype = et)) = [] :=
  List.filter_eq_nil_iff.mpr fun o ho => by simp [h o ho]

theorem handleEventFft_demul_filter (cfg : Config) (st : AgoraState) (f s : Nat) :
    (handleEventFft cfg st f s).2.filter
      (fun o => decide (o.etype = EvType.kDemul)) =
      (if demulTriggerCond cfg st f s then
        scheduleSubcarriers cfg EvType.kDemul f s else []) := by
  by_cases hz : demulTriggerCond cfg st f s
  · rw [if_pos hz]
    obtain ⟨hu, h1, h2⟩ := hz
    simp only [handleEventFft, hu]
    rw [if_pos h1, if_pos h2]
    exact filter_etype_self
  · rw [if_neg hz]
    simp only [demulTriggerCond] at hz
    cases hst : cfg.symbolType s with
    | Pilot =>
      simp only [handleEventFft, hst]
      by_cases h1 : (st.pilotFftCounters.completeTask f s).2 = true
      · rw [if_pos h1]
        by_cases h2 : cfg.isRecCalEnabled = false ∨
            (cfg.isRecCalEnabled = true ∧ st.rcLastFrame = some f)
        · rw [if_pos h2]
          by_cases h3 : ((st.pilotFftCounters.completeTask f s).1.completeSymbol f).2 = true
          · rw [if_pos h3]
            refine filter_etype_none fun o ho => ?_
            dsimp only at ho
            rw [(scheduleSubcarriers_mem ho).1]
            decide
          · rw [if_neg h3]
            rfl
        · rw [if_neg h2]
          rfl
      · rw [if_neg h1]
        rfl
    | UL =>
      simp only [handleEventFft, hst]
      by_cases h1 : (st.uplinkFftCounters.completeTask f s).2 = true
      · rw [if_pos h1]
        by_cases h2 : st.zfLastFrame = some f
        · exact absurd ⟨hst, h1, h2⟩ hz
        · rw [if_neg h2]
          rfl
      · rw [if_neg h1]
        rfl
    | CalDL =>
      simp only [handleEventFft, hst]
      by_cases h1 : (st.rcCounters.completeFrameTask f).2 = true
      · rw [if_pos h1]
        rfl
      · rw [if_neg h1]
        rfl
    | CalUL =>
      simp only [handleEventFft, hst]
      by_cases h1 : (st.rcCounters.completeFrameTask f).2 = true
      · rw [if_pos h1]
        rfl
      · rw [if_neg h1]
        rfl
    | DL =>
      simp only [handleEventFft, hst]
      rfl
    | Guard =>
      simp only [handleEventFft, hst]
      rfl

theorem handleEventFft_fftCur (cfg : Config) (st : AgoraState) (f s : Nat)
    (hu : cfg.symbolType s = SymbolType.UL)
    (h1 : (st.uplinkFftCounters.completeTask f s).2 = true) :
    (handleEventFft cfg st f s).1.fftCurFrameForSymbol =
      st.fftCurFrameForSymbol.set (cfg.getULSymbolIdx s) (some f) := by
  simp only [handleEventFft, hu]
  rw [if_pos h1]
  split
  · rfl
  · rfl

theorem handleZf_single (cfg : Config) (st : AgoraState) (f : Nat) :
    handleZf cfg [f] st = handleZfTag cfg st f := rfl

theorem handleZfTag_demul_filter (cfg : Config) (st : AgoraState) (f : Nat) :
    (handleZfTag cfg st f).2.filter
      (fun o => decide (o.etype = EvType.kDemul)) =
      (if (st.zfCounters.completeFrameTask f).2 = true then
        (List.range cfg.numULSyms).flatMap (fun i =>
          if st.fftCurFrameForSymbol.getD i none = some f then
            scheduleSubcarriers cfg EvType.kDemul f (cfg.getULSymbol i)
          else [])
       else []) := by
  by_cases h1 : (st.zfCounters.completeFrameTask f).2 = true
  · rw [if_pos h1]
    simp only [handleZfTag]
    rw [if_pos h1]
    dsimp only
    rw [List.filter_append]
    rw [List.filter_eq_self.mpr fun o ho => ?_, filter_etype_none fun o ho => ?_,
      List.append_nil]
    · simp only [List.mem_flatMap, List.mem_range] at ho
      obtain ⟨i, hi, hm⟩ := ho
      repeat' split at hm
      all_goals first
        | exact absurd hm (List.not_mem_nil o)
        | simp [(scheduleSubcarriers_mem hm).1]
    · simp only [List.mem_flatMap, List.mem_range] at ho
      obtain ⟨i, hi, hm⟩ := ho
      repeat' split at hm
      all_goals first
        | exact absurd hm (List.not_mem_nil o)
        | simp [(scheduleSubcarriers_mem hm).1]
  · rw [if_neg h1]
    simp only [handleZfTag]
    rw [if_neg h1]
    rfl

theorem dispatch_no_demul {cfg : Config} {st : AgoraState} {e : Ev}
    {st1 : AgoraState} {out1 : List OutEv} {wf : Bool}
    (h : dispatch cfg st e = some (st1, out1, wf))
    (hf : ∀ tags, e ≠ Ev.fft tags) (hz : ∀ tags, e ≠ Ev.zf tags) :
    ∀ o ∈ out1, o.etype ≠ EvType.kDemul := by
  intro o ho hde
  cases e with
  | packetRX f s =>
    simp only [dispatch] at h
    split at h
    · simp only [Option.some.injEq, Prod.mk.injEq] at h
      obtain ⟨-, h2, -⟩ := h
      rw [← h2] at ho
      exact absurd ho (List.not_mem_nil o)
    · simp only [Option.some.injEq, Prod.mk.injEq] at h
      obtain ⟨-, h2, -⟩ := h
      rw [← h2] at ho
      rcases updateRxCounters_out_mem cfg st f s o ho with h2 | h2 <;>
        simp [h2] at hde
  | fft tags => exact hf tags rfl
  | zf tags => exact hz tags rfl
  | demul f s =>
    simp only [dispatch] at h
    cases hd : handleDemul cfg st f s with
    | none =>
      rw [hd] at h
      exact absurd h (by simp)
    | some p =>
      rw [hd] at h
      simp only [Option.map_some', Option.some.injEq, Prod.mk.injEq] at h
      obtain ⟨-, h2, -⟩ := h
      rw [← h2] at ho
      have hdec := handleDemul_out_mem
        (show handleDemul cfg st f s = some (p.1, p.2) by rw [hd]) o ho
      simp [hdec] at hde
  | decode f s =>
    simp only [dispatch] at h
    rcases handleDecode_out_mem h o ho with h2 | h2 | h2 <;> simp [h2] at hde
  | packetToMac f s =>
    simp only [dispatch] at h
    rcases handleToMac_out_mem h o ho with h2 | h2 <;> simp [h2] at hde
  | packetFromMac f =>
    simp only [dispatch, Option.some.injEq, Prod.mk.injEq] at h
    obtain ⟨-, h2, -⟩ := h
    rw [← h2] at ho
    rcases handleFromMac_out_mem cfg st f o ho with h2 | h2 <;> simp [h2] at hde
  | encode tags =>
    simp only [dispatch, Option.some.injEq, Prod.mk.injEq] at h
    obtain ⟨-, h2, -⟩ := h
    rw [← h2] at ho
    simp [handleEncode_out_mem cfg tags st o ho] at hde
  | precode f s =>
    simp only [dispatch, Option.some.injEq, Prod.mk.injEq] at h
    obtain ⟨-, h2, -⟩ := h
    rw [← h2] at ho
    simp [handlePrecode_out_mem cfg st f s o ho] at hde
  | ifft tags =>
    simp only [dispatch] at h
    rcases handleIfft_out_mem tags st [] st1 out1 wf h o ho with h2 | h2 | h2 | h2
    · exact absurd h2 (List.not_mem_nil o)
    all_goals simp [h2] at hde
  | packetTX f s =>
    simp only [dispatch] at h
    rcases handlePacketTX_out_mem h o ho with h2 | h2 <;> simp [h2] at hde

/-- C8: Demul for uplink symbol `s` of frame `f` is dispatched by the FFT
completion exactly when the completed task is the last uplink-FFT task of
`(f, s)` and `zf_last_frame == f` (`demulTriggerCond`); when the uplink FFT
is the last task of its symbol, the step records `f` in
`fft_cur_frame_for_symbol` at the symbol's uplink index; and a ZF
completion dispatches Demul exactly when it is the last ZF task of `f`, for
precisely the uplink symbols whose `fft_cur_frame_for_symbol` entry equals
`f`.  No other master-loop event dispatches Demul work. -/
theorem c8_demul_schedule_iff (cfg : Config) :
    (∀ st f s st' out, step cfg st (Ev.fft [(f, s)]) = some (st', out) →
      (out.filter (fun o => decide (o.etype = EvType.kDemul)) =
        (if demulTriggerCond cfg st f s then
          scheduleSubcarriers cfg EvType.kDemul f s else [])) ∧
      (cfg.symbolType s = SymbolType.UL →
        (st.uplinkFftCounters.completeTask f s).2 = true →
        st'.fftCurFrameForSymbol =
          st.fftCurFrameForSymbol.set (cfg.getULSymbolIdx s) (some f))) ∧
    (∀ st f st' out, step cfg st (Ev.zf [f]) = some (st', out) →
      out.filter (fun o => decide (o.etype = EvType.kDemul)) =
        (if (st.zfCounters.completeFrameTask f).2 = true then
          (List.range cfg.numULSyms).flatMap (fun i =>
            if st.fftCurFrameForSymbol.getD i none = some f then
              scheduleSubcarriers cfg EvType.kDemul f (cfg.getULSymbol i)
            else [])
         else [])) ∧
    (∀ st e st' out, (∀ tags, e ≠ Ev.fft tags) → (∀ tags, e ≠ Ev.zf tags) →
      step cfg st e = some (st', out) →
      out.filter (fun o => decide (o.etype = EvType.kDemul)) = []) := by
  refine ⟨?_, ?_, ?_⟩
  · intro st f s st' out h
    obtain ⟨st1, out1, wf, hd, hc⟩ := step_decomp h
    simp only [dispatch, Option.some.injEq, Prod.mk.injEq] at hd
    obtain ⟨hd1, hd2, hd3⟩ := hd
    rcases hc with ⟨hwf, -, -⟩ | ⟨-, out2, hq, hout⟩
    · rw [← hd3] at hwf
      exact absurd hwf (by simp)
    · constructor
      · rw [hout, List.filter_append,
          drainFft_filter_ne hq (fun o hfft => by simp [hfft]), List.append_nil,
          ← hd2, handleFft_single]
        exact handleEventFft_demul_filter cfg st f s
      · intro hu h1
        obtain ⟨q, c, fl, sc, lg, he⟩ := drainFft_state hq
        rw [he, ← hd1]
        show (handleFft cfg [(f, s)] st).1.fftCurFrameForSymbol = _
        rw [handleFft_single]
        exact handleEventFft_fftCur cfg st f s hu h1
  · intro st f st' out h
    obtain ⟨st1, out1, wf, hd, hc⟩ := step_decomp h
    simp only [dispatch, Option.some.injEq, Prod.mk.injEq] at hd
    obtain ⟨hd1, hd2, hd3⟩ := hd
    rcases hc with ⟨hwf, -, -⟩ | ⟨-, out2, hq, rfl⟩
    · rw [← hd3] at hwf
      exact absurd hwf (by simp)
    · rw [List.filter_append,
        drainFft_filter_ne hq (fun o hfft => by simp [hfft]), List.append_nil,
        ← hd2, handleZf_single]
      exact handleZfTag_demul_filter cfg st f
  · intro st e st' out hf hz h
    obtain ⟨st1, out1, wf, hd, hc⟩ := step_decomp h
    have h1 : out1.filter (fun o => decide (o.etype = EvType.kDemul)) = [] :=
      filter_etype_none (dispatch_no_demul hd hf hz)
    rcases hc with ⟨-, -, rfl⟩ | ⟨-, out2, hq, rfl⟩
    · exact h1
    · rw [List.filter_append, h1, List.nil_append]
      exact drainFft_filter_ne hq (fun o hfft => by simp [hfft])

/-- Witness for C8 at concrete inputs under `cfgU`: the uplink FFT
completion of symbol (0,1) before ZF records the rendezvous entry and
dispatches no Demul, and the first ZF completion at the initial state
finds no recorded entry. -/
theorem c8_demul_schedule_iff_witness :
    ((step cfgU (initState cfgU) (Ev.fft [(0, 1)])).map
      (fun p => (p.2.filter (fun o => decide (o.etype = EvType.kDemul)),
        p.1.fftCurFrameForSymbol))) =
      some ([], (initState cfgU).fftCurFrameForSymbol.set
        (cfgU.getULSymbolIdx 1) (some 0)) := by
  cases h : step cfgU (initState cfgU) (Ev.fft [(0, 1)]) with
  | none =>
    have hs : (step cfgU (initState cfgU) (Ev.fft [(0, 1)])).isSome = true := by
      decide
    rw [h] at hs
    exact absurd hs (by simp)
  | some p =>
    have h2 := (c8_demul_schedule_iff cfgU).1 (initState cfgU) 0 1 p.1 p.2
      (by rw [h])
    simp only [Option.map_some']
    rw [h2.1, if_neg (by decide), h2.2 (by decide) (by decide)]

theorem sdpPilotFold_precode (cfg : Config) (f : Nat) :
    ∀ (l : List Nat) (acc : AgoraState × List OutEv) (o : OutEv),
    o ∈ (l.foldl (sdpPilotStep cfg f) acc).2 →
    o ∈ acc.2 ∨ (acc.1.zfLastFrame = some f ∧ ∃ i ∈ l,
      o.etype = EvType.kPrecode ∧ o.frame = f ∧ o.symbol = cfg.getDLSymbol i) := by
  intro l
  induction l with
  | nil =>
    intro acc o ho
    exact .inl ho
  | cons a t ih =>
    intro acc o ho
    rw [List.foldl_cons] at ho
    rcases ih (sdpPilotStep cfg f acc a) o ho with hm | ⟨hz, i, hi, hp⟩
    · simp only [sdpPilotStep] at hm
      split at hm
      · rename_i hzl
        rcases List.mem_append.mp hm with hm | hm
        · exact .inl hm
        · obtain ⟨he, hf2, hs⟩ := scheduleSubcarriers_mem hm
          exact .inr ⟨hzl, a, List.mem_cons_self a t, he, hf2, hs⟩
      · exact .inl hm
    · refine .inr ⟨?_, i, List.mem_cons_of_mem a hi, hp⟩
      revert hz
      simp only [sdpPilotStep]
      split
      · exact id
      · exact id

theorem handleZfTag_precode (cfg : Config) (st : AgoraState) (f : Nat) :
    ∀ o ∈ (handleZfTag cfg st f).2, o.etype = EvType.kPrecode →
    (handleZfTag cfg st f).1.zfLastFrame = some f ∧ o.frame = f ∧
    ∃ i l, o.symbol = cfg.getDLSymbol i ∧
      st.encodeCurFrameForSymbol.getD i none = some l ∧ f ≤ l := by
  intro o ho hp
  simp only [handleZfTag] at ho ⊢
  by_cases hlast : (st.zfCounters.completeFrameTask f).2 = true
  · rw [if_pos hlast] at ho ⊢
    refine ⟨rfl, ?_⟩
    dsimp only at ho
    rcases List.mem_append.mp ho with hm | hm
    · simp only [List.mem_flatMap, List.mem_range] at hm
      obtain ⟨i, hi, hm⟩ := hm
      split at hm
      · rw [(scheduleSubcarriers_mem hm).1] at hp
        exact absurd hp (by decide)
      · exact absurd hm (List.not_mem_nil o)
    · simp only [List.mem_flatMap, List.mem_range] at hm
      obtain ⟨i, hi, hm⟩ := hm
      split at hm
      · rename_i l hl
        split at hm
        · rename_i hge
          obtain ⟨he, hf2, hs⟩ := scheduleSubcarriers_mem hm
          exact ⟨hf2, i, l, hs, hl, hge⟩
        · exact absurd hm (List.not_mem_nil o)
      · exact absurd hm (List.not_mem_nil o)
  · rw [if_neg hlast] at ho
    exact absurd ho (List.not_mem_nil o)

theorem handleEncodeTag_precode (cfg : Config) (st : AgoraState) (f s : Nat) :
    ∀ o ∈ (handleEncodeTag cfg st f s).2,
    st.zfLastFrame = some f ∧ o.etype = EvType.kPrecode ∧ o.frame = f ∧
    o.symbol = s ∧ (st.encodeCounters.completeTask f s).2 = true := by
  intro o ho
  simp only [handleEncodeTag] at ho
  by_cases h1 : (st.encodeCounters.completeTask f s).2 = true
  · rw [if_pos h1] at ho
    dsimp only at ho
    by_cases h2 : st.zfLastFrame = some f
    · rw [if_pos h2] at ho
      obtain ⟨he, hf2, hs⟩ := scheduleSubcarriers_mem ho
      exact ⟨h2, he, hf2, hs, h1⟩
    · rw [if_neg h2] at ho
      exact absurd ho (List.not_mem_nil o)
  · rw [if_neg h1] at ho
    exact absurd ho (List.not_mem_nil o)

/-- C1 (amended): every Precode dispatch requires the last ZF task of its
frame to have completed, but the Encode precondition holds only for
downlink data symbols.  At the three dispatch sites: (a)
`ScheduleDownlinkProcessing` dispatches Precode only for client DL pilot
symbols, only when `zf_last_frame == F`, with no Encode requirement; (b)
the ZF-completion flush dispatches Precode for a symbol only when its
Encode rendezvous entry holds a frame `>= F`; (c) the Encode-completion
handler dispatches Precode only on the last Encode task of `(F, s)` and
only when `zf_last_frame == F`. -/
theorem c1_precode_preconditions (cfg : Config) :
    (∀ st f o, o ∈ (scheduleDownlinkProcessing cfg st f).2 →
      o.etype = EvType.kPrecode →
      st.zfLastFrame = some f ∧ o.frame = f ∧
      ∃ i, i < cfg.clientDlPilotSyms ∧ o.symbol = cfg.getDLSymbol i) ∧
    (∀ st f o, o ∈ (handleZfTag cfg st f).2 → o.etype = EvType.kPrecode →
      (handleZfTag cfg st f).1.zfLastFrame = some f ∧ o.frame = f ∧
      ∃ i l, o.symbol = cfg.getDLSymbol i ∧
        st.encodeCurFrameForSymbol.getD i none = some l ∧ f ≤ l) ∧
    (∀ st f s o, o ∈ (handleEncodeTag cfg st f s).2 →
      st.zfLastFrame = some f ∧ o.etype = EvType.kPrecode ∧ o.frame = f ∧
      o.symbol = s ∧ (st.encodeCounters.completeTask f s).2 = true) := by
  refine ⟨?_, ?_, ?_⟩
  · intro st f o ho hp
    simp only [scheduleDownlinkProcessing] at ho
    rcases List.mem_append.mp ho with hm | hm
    · rcases sdpPilotFold_precode cfg f _ _ o hm with h0 | ⟨hz, i, hi, _, hf2, hs⟩
      · exact absurd h0 (List.not_mem_nil o)
      · exact ⟨hz, hf2, i, List.mem_range.mp hi, hs⟩
    · simp only [List.mem_flatMap] at hm
      obtain ⟨i, -, hm⟩ := hm
      rw [(scheduleCodeblocks_mem hm).1] at hp
      exact absurd hp (by decide)
  · exact handleZfTag_precode cfg
  · exact handleEncodeTag_precode cfg

/-- C1 counterexample: under `cfgP` (one client DL pilot symbol), the first
RX packet defers the pilot to the rendezvous array, and the ZF completion
of frame 0 dispatches Precode for the pilot symbol (0, 1) while the Encode
task counters of frame 0 are still zero — no Encode task for the symbol
ever completed. -/
theorem c1_counterexample :
    ((run cfgP (initState cfgP) [Ev.packetRX 0 0, Ev.fft [(0, 0)]]).bind
      (fun st => step cfgP st (Ev.zf [0]))).map
      (fun p => ((p.2.filter fun o => decide (o.etype = EvType.kPrecode)).map
        (fun o => (o.frame, o.symbol)),
        p.1.encodeCounters.getTaskCount 0 1,
        p.1.encodeCounters.getTaskCount 0 2)) =
      some ([(0, 1)], 0, 0) := by decide

/-- Witness for the amended C1 at a concrete input: with
`zf_last_frame = some 0`, `ScheduleDownlinkProcessing` under `cfgP`
dispatches the Precode event for the client DL pilot symbol 1 of frame 0. -/
theorem c1_precode_preconditions_witness :
    ({ initState cfgP with zfLastFrame := some 0 } : AgoraState).zfLastFrame =
      some 0 ∧
    (⟨EvType.kPrecode, 0, 1, 1⟩ : OutEv).frame = 0 ∧
    ∃ i, i < cfgP.clientDlPilotSyms ∧
      (⟨EvType.kPrecode, 0, 1, 1⟩ : OutEv).symbol = cfgP.getDLSymbol i :=
  (c1_precode_preconditions cfgP).1
    { initState cfgP with zfLastFrame := some 0 } 0
    ⟨EvType.kPrecode, 0, 1, 1⟩ (by decide) (by decide)

theorem ci_to_sched {cfg : Config} {st st' : AgoraState} {frame completed : Nat}
    (h : checkIncrementScheduleFrame cfg st frame completed = some st') :
    ciSched cfg (schedOf st) frame completed = some (schedOf st') := by
  simp only [checkIncrementScheduleFrame] at h
  split at h
  · rename_i hg
    split at h
    · rename_i hf
      simp only [Option.some.injEq] at h
      subst h
      simp only [ciSched, schedOf]
      rw [if_pos hg, if_pos hf]
    · rename_i hf
      simp only [Option.some.injEq] at h
      subst h
      simp only [ciSched, schedOf]
      rw [if_pos hg, if_neg hf]
  · exact absurd h (by simp)

theorem schedStep_trans {cfg : Config} :
    ∀ {q r s : Sched}, SchedStep cfg q r → SchedStep cfg r s → SchedStep cfg q s := by
  intro q r s h1 h2
  induction h1 with
  | refl => exact h2
  | up frame hc _ ih => exact .up frame hc (ih h2)
  | down frame hpf hc _ ih => exact .down frame hpf hc (ih h2)
  | procAdv _ ih => exact .procAdv (ih h2)

theorem schedStep_of_eq {cfg : Config} {q r : Sched} (h : q = r) :
    SchedStep cfg q r := h ▸ .refl q

theorem ciSched_log {cfg : Config} {q q' : Sched} {frame completed : Nat}
    (h : ciSched cfg q frame completed = some q') :
    q'.log = q.log ++ [(frame, completed)] := by
  simp only [ciSched] at h
  split at h
  · split at h
    · simp only [Option.some.injEq] at h
      subst h
      rfl
    · simp only [Option.some.injEq] at h
      subst h
      rfl
  · exact absurd h (by simp)

theorem schedStep_log {cfg : Config} :
    ∀ {q r : Sched}, SchedStep cfg q r → ∃ t, r.log = q.log ++ t := by
  intro q r h
  induction h with
  | refl => exact ⟨[], (List.append_nil _).symm⟩
  | up frame hc _ ih =>
    obtain ⟨t, ht⟩ := ih
    exact ⟨_, by rw [ht, ciSched_log hc, List.append_assoc]⟩
  | down frame hpf hc _ ih =>
    obtain ⟨t, ht⟩ := ih
    exact ⟨_, by rw [ht, ciSched_log hc, List.append_assoc]⟩
  | procAdv _ ih => exact ih

theorem c3Bad_mono {q r : Sched} (h : ∃ t, r.log = q.log ++ t)
    (hb : c3Bad q) : c3Bad r := by
  obtain ⟨t, ht⟩ := h
  obtain ⟨f, hf | hf⟩ := hb
  · exact ⟨f, .inl (by rw [ht, List.count_append]; omega)⟩
  · exact ⟨f, .inr (by rw [ht, List.count_append]; omega)⟩

theorem ciSched_up_inv {cfg : Config} (hp : presetFlags cfg = 0)
    {q q' : Sched} {frame : Nat}
    (h : ciSched cfg q frame kUplinkComplete = some q')
    (hi : c3Inv q) : c3Inv q' ∨ c3Bad q' := by
  obtain ⟨hb, hf⟩ := hi
  simp only [c3Inv, c3Bad, kUplinkComplete, kDownlinkComplete] at hf ⊢
  simp only [ciSched, kUplinkComplete, kProcessingComplete] at h
  split at h
  · rename_i hg
    split at h
    · rename_i h3
      simp only [Option.some.injEq] at h
      subst h
      rcases hf with h0 | ⟨h1, -⟩ | ⟨h2, hle, -⟩
      · rw [h0] at h3
        exact absurd h3 (by decide)
      · rw [h1] at h3
        exact absurd h3 (by decide)
      · exact .inl ⟨by dsimp only; omega, .inl (by dsimp only; exact hp)⟩
    · rename_i h3
      simp only [Option.some.injEq] at h
      subst h
      rcases hf with h0 | ⟨h1, hc⟩ | ⟨h2, hle, hc⟩
      · refine .inl ⟨by dsimp only; omega, .inr (.inl ⟨by dsimp only; omega, ?_⟩)⟩
        dsimp only
        rw [List.count_append, hg]
        simp
      · refine .inr ⟨q.sche, .inl ?_⟩
        dsimp only
        rw [List.count_append, hg]
        rw [hg] at hc
        simp only [List.count_singleton, beq_self_eq_true, if_true]
        omega
      · exact absurd (by rw [h2] : q.flags + 1 = 3) h3
  · exact absurd h (by simp)

theorem ciSched_down_inv {cfg : Config} (hp : presetFlags cfg = 0)
    {q q' : Sched} {frame : Nat} (hpf : frame = q.proc)
    (h : ciSched cfg q frame kDownlinkComplete = some q')
    (hi : c3Inv q) : c3Inv q' ∨ c3Bad q' := by
  obtain ⟨hb, hf⟩ := hi
  simp only [c3Inv, c3Bad, kUplinkComplete, kDownlinkComplete] at hf ⊢
  simp only [ciSched, kDownlinkComplete, kProcessingComplete] at h
  split at h
  · rename_i hg
    split at h
    · rename_i h3
      simp only [Option.some.injEq] at h
      subst h
      rcases hf with h0 | ⟨h1, -⟩ | ⟨h2, hle, -⟩
      · rw [h0] at h3
        exact absurd h3 (by decide)
      · exact .inl ⟨by dsimp only; omega, .inl (by dsimp only; exact hp)⟩
      · rw [h2] at h3
        exact absurd h3 (by decide)
    · rename_i h3
      simp only [Option.some.injEq] at h
      subst h
      rcases hf with h0 | ⟨h1, hc⟩ | ⟨h2, hle, hc⟩
      · refine .inl ⟨by dsimp only; omega,
          .inr (.inr ⟨by dsimp only; omega, by dsimp only; omega, ?_⟩)⟩
        dsimp only
        rw [List.count_append, hg]
        simp
      · exact absurd (by rw [h1] : q.flags + 2 = 3) h3
      · refine .inr ⟨q.sche, .inr ?_⟩
        dsimp only
        rw [List.count_append, hg]
        rw [hg] at hc
        simp only [List.count_singleton, beq_self_eq_true, if_true]
        omega
  · exact absurd h (by simp)

theorem schedStep_inv {cfg : Config} (hp : presetFlags cfg = 0) :
    ∀ {q r : Sched}, SchedStep cfg q r → c3Inv q → c3Inv r ∨ c3Bad r := by
  intro q r h
  induction h with
  | refl => exact fun hi => .inl hi
  | up frame h1 h2 ih =>
    intro hi
    rcases ciSched_up_inv hp h1 hi with hq' | hbad
    · exact ih hq'
    · exact .inr (c3Bad_mono (schedStep_log h2) hbad)
  | down frame hpf h1 h2 ih =>
    intro hi
    rcases ciSched_down_inv hp hpf h1 hi with hq' | hbad
    · exact ih hq'
    · exact .inr (c3Bad_mono (schedStep_log h2) hbad)
  | procAdv h2 ih =>
    intro hi
    obtain ⟨hb, hf⟩ := hi
    refine ih ⟨by dsimp only; omega, ?_⟩
    dsimp only
    rcases hf with h0 | ⟨h1, hc⟩ | ⟨h2b, hle, hc⟩
    · exact .inl h0
    · exact .inr (.inl ⟨h1, hc⟩)
    · exact .inr (.inr ⟨h2b, by omega, hc⟩)

/-! Each handler of the master loop acts on the schedule projection only
through `SchedStep` moves. -/

theorem foldPair_sched {α : Type} (f : AgoraState × List OutEv → α → AgoraState × List OutEv)
    (hf : ∀ acc a, schedOf (f acc a).1 = schedOf acc.1) :
    ∀ (l : List α) (acc : AgoraState × List OutEv),
    schedOf (l.foldl f acc).1 = schedOf acc.1 := by
  intro l
  induction l with
  | nil => intro acc; rfl
  | cons a t ih =>
    intro acc
    rw [List.foldl_cons, ih (f acc a), hf acc a]

theorem rxPacketTypeCount_sched (cfg : Config) (st : AgoraState) (f s : Nat) :
    schedOf (rxPacketTypeCount cfg st f s) = schedOf st := by
  obtain ⟨p, r, hB⟩ := rxPacketTypeCount_state cfg st f s
  rw [hB]
  rfl

theorem sdp_sched (cfg : Config) (st : AgoraState) (f : Nat) :
    schedOf (scheduleDownlinkProcessing cfg st f).1 = schedOf st := by
  obtain ⟨l2, hS⟩ := sdp_state cfg st f
  rw [hS]
  rfl

theorem updateRxCounters_sched (cfg : Config) (st : AgoraState) (f s : Nat) :
    schedOf (updateRxCounters cfg st f s).1 = schedOf st := by
  obtain ⟨p, r, hB⟩ := rxPacketTypeCount_state cfg st f s
  obtain ⟨l2, hS⟩ := sdp_state cfg (rxPacketTypeCount cfg st f s) f
  simp only [updateRxCounters]
  split
  · split
    · split
      · rw [hB]
        rfl
      · rw [hS, hB]
        rfl
    · rw [hB]
      rfl
  · rw [hB]
    rfl

theorem handleEventFft_sched (cfg : Config) (st : AgoraState) (f s : Nat) :
    schedOf (handleEventFft cfg st f s).1 = schedOf st := by
  simp only [handleEventFft]
  split <;> (repeat' split) <;> rfl

theorem handleFft_sched (cfg : Config) (tags : List (Nat × Nat)) (st : AgoraState) :
    schedOf (handleFft cfg tags st).1 = schedOf st := by
  simp only [handleFft]
  apply foldPair_sched
  intro acc a
  exact handleEventFft_sched cfg acc.1 a.1 a.2

theorem handleZfTag_sched (cfg : Config) (st : AgoraState) (f : Nat) :
    schedOf (handleZfTag cfg st f).1 = schedOf st := by
  simp only [handleZfTag]
  split <;> rfl

theorem handleZf_sched (cfg : Config) (tags : List Nat) (st : AgoraState) :
    schedOf (handleZf cfg tags st).1 = schedOf st := by
  simp only [handleZf]
  apply foldPair_sched
  intro acc a
  exact handleZfTag_sched cfg acc.1 a

theorem handleEncodeTag_sched (cfg : Config) (st : AgoraState) (f s : Nat) :
    schedOf (handleEncodeTag cfg st f s).1 = schedOf st := by
  simp only [handleEncodeTag]
  split <;> (repeat' split) <;> rfl

theorem handleEncode_sched (cfg : Config) (tags : List (Nat × Nat)) (st : AgoraState) :
    schedOf (handleEncode cfg tags st).1 = schedOf st := by
  simp only [handleEncode]
  apply foldPair_sched
  intro acc a
  exact handleEncodeTag_sched cfg acc.1 a.1 a.2

theorem handlePrecode_sched (cfg : Config) (st : AgoraState) (f s : Nat) :
    schedOf (handlePrecode cfg st f s).1 = schedOf st := by
  simp only [handlePrecode]
  split <;> (repeat' split) <;> rfl

theorem handleFromMac_sched (cfg : Config) (st : AgoraState) (f : Nat) :
    schedOf (handleFromMac cfg st f).1 = schedOf st := by
  obtain ⟨l2, hS⟩ := sdp_state cfg
    { st with macToPhyCounters := (st.macToPhyCounters.completeTask f 0).1 } f
  simp only [handleFromMac]
  split
  · split
    · rfl
    · rw [hS]
      rfl
  · rfl

theorem txFlush_sched (cfg : Config) (f : Nat) :
    ∀ (l : List Nat) (st : AgoraState),
    schedOf (txFlush cfg f l st).1 = schedOf st := by
  intro l
  induction l with
  | nil => intro st; rfl
  | cons a t ih =>
    intro st
    simp only [txFlush]
    split
    · rw [ih]
      rfl
    · rfl

theorem drainDeferral_sched (cfg : Config) :
    ∀ (fuel : Nat) (st : AgoraState) (out : List OutEv) (st' : AgoraState)
      (out' : List OutEv),
    drainDeferral cfg fuel st out = some (st', out') →
    schedOf st' = schedOf st := by
  intro fuel
  induction fuel with
  | zero =>
    intro st out st' out' h
    simp only [drainDeferral, Option.some.injEq, Prod.mk.injEq] at h
    rw [← h.1]
  | succ n ih =>
    intro st out st' out' h
    simp only [drainDeferral] at h
    split at h
    · exact absurd h (by simp)
    · rename_i f rest hdef
      split at h
      · split at h
        · obtain ⟨l2, hS⟩ := sdp_state cfg st f
          rw [ih _ _ _ _ h, hS]
          rfl
        · exact absurd h (by simp)
      · simp only [Option.some.injEq, Prod.mk.injEq] at h
        rw [← h.1]

theorem cfc_sched {cfg : Config} {st st' : AgoraState} {frame : Nat}
    {out : List OutEv} {fin : Bool}
    (h : checkFrameComplete cfg st frame = some (st', out, fin)) :
    SchedStep cfg (schedOf st) (schedOf st') := by
  simp only [checkFrameComplete] at h
  split at h
  · split at h
    · split at h
      · exact absurd h (by simp)
      · rename_i s2 o2 heq
        simp only [Option.some.injEq, Prod.mk.injEq] at h
        obtain ⟨h1, -⟩ := h
        subst h1
        refine .procAdv ?_
        split at heq
        · exact schedStep_of_eq (drainDeferral_sched cfg _ _ _ _ _ heq).symm
        · simp only [Option.some.injEq, Prod.mk.injEq] at heq
          obtain ⟨hq1, -⟩ := heq
          exact schedStep_of_eq (by rw [← hq1]; rfl)
    · exact absurd h (by simp)
  · simp only [Option.some.injEq, Prod.mk.injEq] at h
    obtain ⟨h1, -⟩ := h
    subst h1
    exact .refl _

theorem handleDemul_sched {cfg : Config} {st st' : AgoraState} {f s : Nat}
    {out : List OutEv} (h : handleDemul cfg st f s = some (st', out)) :
    SchedStep cfg (schedOf st) (schedOf st') := by
  simp only [handleDemul] at h
  repeat' split at h
  all_goals try (exact Option.noConfusion h)
  all_goals simp only [Option.some.injEq, Prod.mk.injEq] at h
  all_goals obtain ⟨h1, -⟩ := h
  all_goals subst h1
  all_goals
    first
      | exact schedStep_of_eq rfl
      | (rename checkIncrementScheduleFrame cfg _ _ _ = some _ => hq
         have hstep := @SchedStep.up cfg _ _ _ f (ci_to_sched hq) (SchedStep.refl _)
         exact hstep)

theorem handleDecode_sched {cfg : Config} {st st' : AgoraState} {f s : Nat}
    {out : List OutEv} {stp : Bool}
    (h : handleDecode cfg st f s = some (st', out, stp)) :
    SchedStep cfg (schedOf st) (schedOf st') := by
  simp only [handleDecode] at h
  repeat' split at h
  all_goals try (exact Option.noConfusion h)
  all_goals simp only [Option.some.injEq, Prod.mk.injEq] at h
  all_goals obtain ⟨h1, -⟩ := h
  all_goals subst h1
  all_goals
    first
      | exact schedStep_of_eq rfl
      | (rename checkFrameComplete cfg _ _ = some _ => hq
         have hstep := cfc_sched hq
         exact hstep)

theorem handleToMac_sched {cfg : Config} {st st' : AgoraState} {f s : Nat}
    {out : List OutEv} {stp : Bool}
    (h : handleToMac cfg st f s = some (st', out, stp)) :
    SchedStep cfg (schedOf st) (schedOf st') := by
  simp only [handleToMac] at h
  repeat' split at h
  all_goals try (exact Option.noConfusion h)
  all_goals simp only [Option.some.injEq, Prod.mk.injEq] at h
  all_goals obtain ⟨h1, -⟩ := h
  all_goals subst h1
  all_goals
    first
      | exact schedStep_of_eq rfl
      | (rename checkFrameComplete cfg _ _ = some _ => hq
         have hstep := cfc_sched hq
         exact hstep)

theorem handlePacketTX_sched {cfg : Config} {st st' : AgoraState} {f s : Nat}
    {out : List OutEv} {stp : Bool}
    (h : handlePacketTX cfg st f s = some (st', out, stp)) :
    SchedStep cfg (schedOf st) (schedOf st') := by
  simp only [handlePacketTX] at h
  repeat' split at h
  all_goals try (exact Option.noConfusion h)
  all_goals simp only [Option.some.injEq, Prod.mk.injEq] at h
  all_goals obtain ⟨h1, -⟩ := h
  all_goals subst h1
  all_goals
    first
      | exact schedStep_of_eq rfl
      | (rename checkFrameComplete cfg _ _ = some _ => hq
         have hstep := cfc_sched hq
         exact hstep)

theorem ifftSymbolDone_sched {cfg : Config} {f : Nat} {fl : AgoraState × List OutEv}
    {st' : AgoraState} {out : List OutEv} {stp : Bool}
    (h : ifftSymbolDone cfg f fl = some (st', out, stp)) :
    SchedStep cfg (schedOf fl.1) (schedOf st') := by
  simp only [ifftSymbolDone] at h
  split at h
  · split at h
    · rename_i hpf
      split at h
      · exact absurd h (by simp)
      · rename_i s2 hci
        split at h
        · exact absurd h (by simp)
        · rename_i s3 o3 b3 hcf
          simp only [Option.some.injEq, Prod.mk.injEq] at h
          obtain ⟨h1, -⟩ := h
          subst h1
          have h1s := ci_to_sched hci
          have h2s := cfc_sched hcf
          exact .down f hpf h1s h2s
    · exact absurd h (by simp)
  · simp only [Option.some.injEq, Prod.mk.injEq] at h
    obtain ⟨h1, -⟩ := h
    subst h1
    exact schedStep_of_eq rfl

theorem handleIfftTag_sched {cfg : Config} {st st' : AgoraState} {f s : Nat}
    {out : List OutEv} {stp : Bool}
    (h : handleIfftTag cfg st f s = some (st', out, stp)) :
    SchedStep cfg (schedOf st) (schedOf st') := by
  simp only [handleIfftTag] at h
  split at h
  · refine schedStep_trans (schedStep_of_eq ?_) (ifftSymbolDone_sched h)
    symm
    split
    · exact txFlush_sched cfg f _ _
    · rfl
  · simp only [Option.some.injEq, Prod.mk.injEq] at h
    obtain ⟨h1, -⟩ := h
    subst h1
    exact schedStep_of_eq rfl

theorem handleIfft_sched {cfg : Config} :
    ∀ (tags : List (Nat × Nat)) (st : AgoraState) (out0 : List OutEv)
      (st' : AgoraState) (out : List OutEv) (stp : Bool),
    handleIfft cfg tags st out0 = some (st', out, stp) →
    SchedStep cfg (schedOf st) (schedOf st') := by
  intro tags
  induction tags with
  | nil =>
    intro st out0 st' out stp h
    simp only [handleIfft, Option.some.injEq, Prod.mk.injEq] at h
    obtain ⟨h1, -⟩ := h
    subst h1
    exact .refl _
  | cons a t ih =>
    intro st out0 st' out stp h
    simp only [handleIfft] at h
    split at h
    · exact absurd h (by simp)
    · rename_i p hp
      split at h
      · simp only [Option.some.injEq, Prod.mk.injEq] at h
        obtain ⟨h1, -⟩ := h
        subst h1
        exact handleIfftTag_sched hp
      · exact schedStep_trans (handleIfftTag_sched hp) (ih _ _ _ _ _ h)

theorem fftCreatedStep_sched {cfg : Config} {st st' : AgoraState}
    (h : fftCreatedStep cfg st = some st') :
    SchedStep cfg (schedOf st) (schedOf st') := by
  simp only [fftCreatedStep] at h
  repeat' split at h
  all_goals
    first
      | (have hstep := @SchedStep.up cfg _ _ _ _ (ci_to_sched h) (SchedStep.refl _)
         exact hstep)
      | (simp only [Option.some.injEq] at h
         subst h
         exact schedStep_of_eq rfl)

theorem foldCreated_sched {cfg : Config} :
    ∀ (l : List (Nat × Nat)) {st st' : AgoraState},
    l.foldlM (fun s _ => fftCreatedStep cfg s) st = some st' →
    SchedStep cfg (schedOf st) (schedOf st') := by
  intro l
  induction l with
  | nil =>
    intro st st' h
    simp only [List.foldlM_nil, Option.pure_def, Option.some.injEq] at h
    subst h
    exact .refl _
  | cons a t ih =>
    intro st st' h
    rw [List.foldlM_cons] at h
    cases hs : fftCreatedStep cfg st with
    | none =>
      rw [hs] at h
      exact absurd h (by simp)
    | some s =>
      rw [hs] at h
      simp only [Option.bind_eq_bind, Option.some_bind] at h
      exact schedStep_trans (fftCreatedStep_sched hs) (ih h)

theorem drainFft_sched {cfg : Config} {st st' : AgoraState} {out : List OutEv}
    (h : drainFft cfg st = some (st', out)) :
    SchedStep cfg (schedOf st) (schedOf st') := by
  simp only [drainFft] at h
  split at h
  · split at h
    · exact absurd h (by simp)
    · rename_i s2 hfold
      simp only [Option.some.injEq, Prod.mk.injEq] at h
      obtain ⟨h1, -⟩ := h
      subst h1
      have hstep := foldCreated_sched _ hfold
      exact hstep
  · simp only [Option.some.injEq, Prod.mk.injEq] at h
    obtain ⟨h1, -⟩ := h
    subst h1
    exact .refl _

theorem dispatch_sched {cfg : Config} {st : AgoraState} {e : Ev}
    {st1 : AgoraState} {out1 : List OutEv} {wf : Bool}
    (h : dispatch cfg st e = some (st1, out1, wf)) :
    SchedStep cfg (schedOf st) (schedOf st1) := by
  cases e with
  | packetRX f s =>
    simp only [dispatch] at h
    split at h
    · simp only [Option.some.injEq, Prod.mk.injEq] at h
      obtain ⟨h1, -⟩ := h
      subst h1
      exact schedStep_of_eq rfl
    · simp only [Option.some.injEq, Prod.mk.injEq] at h
      obtain ⟨h1, -⟩ := h
      subst h1
      exact schedStep_of_eq (updateRxCounters_sched cfg st f s).symm
  | fft tags =>
    simp only [dispatch, Option.some.injEq, Prod.mk.injEq] at h
    obtain ⟨h1, -⟩ := h
    subst h1
    exact schedStep_of_eq (handleFft_sched cfg tags st).symm
  | zf tags =>
    simp only [dispatch, Option.some.injEq, Prod.mk.injEq] at h
    obtain ⟨h1, -⟩ := h
    subst h1
    exact schedStep_of_eq (handleZf_sched cfg tags st).symm
  | demul f s =>
    simp only [dispatch] at h
    cases hd : handleDemul cfg st f s with
    | none =>
      rw [hd] at h
      exact absurd h (by simp)
    | some p =>
      rw [hd] at h
      simp only [Option.map_some', Option.some.injEq, Prod.mk.injEq] at h
      obtain ⟨h1, -⟩ := h
      subst h1
      exact handleDemul_sched (show handleDemul cfg st f s = some (p.1, p.2) by rw [hd])
  | decode f s =>
    simp only [dispatch] at h
    exact handleDecode_sched h
  | packetToMac f s =>
    simp only [dispatch] at h
    exact handleToMac_sched h
  | packetFromMac f =>
    simp only [dispatch, Option.some.injEq, Prod.mk.injEq] at h
    obtain ⟨h1, -⟩ := h
    subst h1
    exact schedStep_of_eq (handleFromMac_sched cfg st f).symm
  | encode tags =>
    simp only [dispatch, Option.some.injEq, Prod.mk.injEq] at h
    obtain ⟨h1, -⟩ := h
    subst h1
    exact schedStep_of_eq (handleEncode_sched cfg tags st).symm
  | precode f s =>
    simp only [dispatch, Option.some.injEq, Prod.mk.injEq] at h
    obtain ⟨h1, -⟩ := h
    subst h1
    exact schedStep_of_eq (handlePrecode_sched cfg st f s).symm
  | ifft tags =>
    simp only [dispatch] at h
    exact handleIfft_sched tags st [] st1 out1 wf h
  | packetTX f s =>
    simp only [dispatch] at h
    exact handlePacketTX_sched h

theorem step_sched {cfg : Config} {st : AgoraState} {e : Ev} {st' : AgoraState}
    {out : List OutEv} (h : step cfg st e = some (st', out)) :
    SchedStep cfg (schedOf st) (schedOf st') := by
  obtain ⟨st1, out1, wf, hd, hc⟩ := step_decomp h
  rcases hc with ⟨-, h2, -⟩ | ⟨-, out2, hq, -⟩
  · subst h2
    exact schedStep_trans (dispatch_sched hd) (schedStep_of_eq rfl)
  · exact schedStep_trans (dispatch_sched hd) (drainFft_sched hq)

theorem run_append (cfg : Config) (st : AgoraState) (evs : List Ev) (e : Ev) :
    run cfg st (evs ++ [e]) =
      (run cfg st evs).bind (fun s => (step cfg s e).map Prod.fst) := by
  simp only [run, List.foldlM_append, List.foldlM_cons, List.foldlM_nil,
    Option.pure_def, Option.bind_eq_bind]
  congr 1
  funext s
  cases step cfg s e <;> rfl

theorem c3_key (cfg : Config) (hp : presetFlags cfg = 0) :
    ∀ (evs : List Ev) (st' : AgoraState),
    run cfg (initState cfg) evs = some st' →
    ¬c3Bad (schedOf st') → c3Inv (schedOf st') := by
  intro evs
  induction evs using List.reverseRecOn with
  | nil =>
    intro st' h hb
    simp only [run, List.foldlM_nil, Option.pure_def, Option.some.injEq] at h
    subst h
    exact ⟨Nat.le_succ 0, .inl hp⟩
  | append_singleton evs e ih =>
    intro st' h hb
    rw [run_append] at h
    cases hr : run cfg (initState cfg) evs with
    | none =>
      rw [hr] at h
      exact absurd h (by simp)
    | some stMid =>
      rw [hr] at h
      simp only [Option.some_bind] at h
      cases hs : step cfg stMid e with
      | none =>
        rw [hs] at h
        exact absurd h (by simp)
      | some p =>
        rw [hs] at h
        simp only [Option.map_some', Option.some.injEq] at h
        subst h
        have hstep := step_sched (show step cfg stMid e = some (p.1, p.2) by rw [hs])
        have hbMid : ¬c3Bad (schedOf stMid) :=
          fun hbad => hb (c3Bad_mono (schedStep_log hstep) hbad)
        rcases schedStep_inv hp hstep (ih stMid hr hbMid) with h1 | h2
        · exact h1
        · exact absurd h2 hb

/-- C3 (amended): for a configuration with both uplink and downlink
symbols, along any run of the master loop in which every frame contributes
`kUplinkComplete` at most once and `kDownlinkComplete` at most once (the
ghost contribution log), the schedule frame stays at most one ahead of the
processing frame — in particular `cur_sche_frame_id_ - cur_proc_frame_id_`
never exceeds `kScheduleQueues`.  Without downlink (or uplink) symbols the
pre-set flags let every frame advance the schedule frame with no
processing-frame coupling, and the bound fails (`c3_counterexample`). -/
theorem c3_sche_proc_bound (cfg : Config) (hul : 0 < cfg.numULSyms)
    (hdl : 0 < cfg.numDLSyms) (evs : List Ev) (st' : AgoraState)
    (hrun : run cfg (initState cfg) evs = some st')
    (hcap1 : ∀ f, st'.flagLog.count (f, kUplinkComplete) ≤ 1)
    (hcap2 : ∀ f, st'.flagLog.count (f, kDownlinkComplete) ≤ 1) :
    st'.curScheFrame ≤ st'.curProcFrame + 1 ∧
    st'.curScheFrame - st'.curProcFrame ≤ kScheduleQueues := by
  have hp : presetFlags cfg = 0 := by
    simp only [presetFlags]
    rw [if_neg (by omega), if_neg (by omega)]
  have hb : ¬c3Bad (schedOf st') := by
    rintro ⟨f, hf | hf⟩
    · have h1c : st'.flagLog.count (f, kUplinkComplete) ≤ 1 := hcap1 f
      have h2c : 2 ≤ st'.flagLog.count (f, kUplinkComplete) := hf
      omega
    · have h1c : st'.flagLog.count (f, kDownlinkComplete) ≤ 1 := hcap2 f
      have h2c : 2 ≤ st'.flagLog.count (f, kDownlinkComplete) := hf
      omega
  have hinv := c3_key cfg hp evs st' hrun hb
  have hx : st'.curScheFrame ≤ st'.curProcFrame + 1 := hinv.1
  have hq : kScheduleQueues = 2 := rfl
  exact ⟨hx, by omega⟩

/-- C3 counterexample: in the uplink-only configuration `cfgU` the
pre-set `kDownlinkComplete` flag lets every frame's Demul completion
advance the schedule frame on its own; after three frames' uplink
pipelines (with exactly one contribution per frame, as the ghost log
shows) the schedule frame is 3 while the processing frame is still 0,
a gap exceeding `kScheduleQueues = 2`. -/
theorem c3_counterexample :
    (run cfgU (initState cfgU) traceC3).map
      (fun st => (st.curScheFrame, st.curProcFrame, st.flagLog)) =
      some (3, 0, [(0, 1), (1, 1), (2, 1)]) ∧
    kScheduleQueues < 3 - 0 :=
  ⟨by decide, by decide⟩

/-- Witness for the amended C3 at a concrete input: the empty run of the
bidirectional configuration `cfgUD` satisfies the contribution caps and
the bound. -/
theorem c3_sche_proc_bound_witness :
    (0 < cfgUD.numULSyms ∧ 0 < cfgUD.numDLSyms) ∧
    (initState cfgUD).curScheFrame ≤ (initState cfgUD).curProcFrame + 1 ∧
    (initState cfgUD).curScheFrame - (initState cfgUD).curProcFrame ≤
      kScheduleQueues :=
  ⟨⟨by decide, by decide⟩,
   c3_sche_proc_bound cfgUD (by decide) (by decide) [] (initState cfgUD) rfl
     (fun f => by simp [initState, List.count_nil])
     (fun f => by simp [initState, List.count_nil])⟩

/-! C4: the in-order TX dispatch of the downlink IFFT phase. -/

theorem completeTask_maxTask (c : FrameCounters) (f sy : Nat) :
    (c.completeTask f sy).1.maxTask = c.maxTask := rfl

theorem completeSymbol_maxTask (c : FrameCounters) (f : Nat) :
    (c.completeSymbol f).1.maxTask = c.maxTask := rfl

theorem completeSymbol_getTaskCount (c : FrameCounters) (f f' s' : Nat) :
    (c.completeSymbol f).1.getTaskCount f' s' = c.getTaskCount f' s' := rfl

theorem reset_maxTask (c : FrameCounters) (f : Nat) :
    (c.reset f).maxTask = c.maxTask := rfl

theorem completeTask_getTaskCount_mono (c : FrameCounters) (f sy f' s' : Nat) :
    c.getTaskCount f' s' ≤ (c.completeTask f sy).1.getTaskCount f' s' := by
  simp only [FrameCounters.completeTask, FrameCounters.getTaskCount]
  split
  · rename_i hcond
    obtain ⟨h1, h2⟩ := hcond
    rw [h1, h2]
    omega
  · exact Nat.le_refl _

theorem completeTask_getTaskCount_self (c : FrameCounters) (f sy : Nat) :
    (c.completeTask f sy).1.getTaskCount f sy = c.getTaskCount f sy + 1 := by
  simp only [FrameCounters.completeTask, FrameCounters.getTaskCount]
  split
  · rfl
  · rename_i hcond
    exact absurd (by simp) hcond

theorem completeTask_last (c : FrameCounters) (f sy : Nat)
    (h : (c.completeTask f sy).2 = true) :
    c.getTaskCount f sy + 1 = c.maxTask := by
  simp only [FrameCounters.completeTask, beq_iff_eq] at h
  exact h

theorem txFlush_c4 (cfg : Config) (F : Nat) :
    ∀ (len a : Nat) (st : AgoraState), st.ifftNextSymbol = a →
    ∃ m, m ≤ len ∧
      (txFlush cfg F (List.range' a len) st).1 = { st with ifftNextSymbol := a + m, txHist := st.txHist ++ (List.range' a m).map (fun i => (F, cfg.getDLSymbol i)) } ∧
      (∀ i, a ≤ i → i < a + m →
        st.ifftCurFrameForSymbol.getD i none = some F) := by
  intro len
  induction len with
  | zero =>
    intro a st hn
    subst hn
    refine ⟨0, Nat.le_refl 0, ?_, fun i h1 h2 => absurd (Nat.lt_of_le_of_lt h1 h2) (by omega)⟩
    simp only [List.range', List.map_nil, List.append_nil, Nat.add_zero]
    rfl
  | succ len ih =>
    intro a st hn
    rw [List.range'_succ]
    by_cases hc : st.ifftCurFrameForSymbol.getD a none = some F
    · simp only [txFlush]
      rw [if_pos hc]
      obtain ⟨m, hm, heq, hent⟩ := ih (a + 1) { st with ifftNextSymbol := st.ifftNextSymbol + 1, txHist := st.txHist ++ [(F, cfg.getDLSymbol a)] } (by rw [hn])
      refine ⟨m + 1, by omega, ?_, ?_⟩
      · rw [heq]
        rw [List.range'_succ, List.map_cons]
        rw [show a + 1 + m = a + (m + 1) from by omega]
        rw [List.append_assoc]
        rfl
      · intro i h1 h2
        rcases Nat.eq_or_lt_of_le h1 with h1 | h1
        · rw [← h1]
          exact hc
        · exact hent i h1 (by omega)
    · simp only [txFlush]
      rw [if_neg hc]
      subst hn
      refine ⟨0, Nat.zero_le _, ?_, fun i h1 h2 => absurd (Nat.lt_of_le_of_lt h1 h2) (by omega)⟩
      simp only [List.range', List.map_nil, List.append_nil, Nat.add_zero]

theorem getD_set_self (l : List (Option Nat)) (i : Nat) (a d : Option Nat)
    (h : i < l.length) : (l.set i a).getD i d = a := by
  rw [List.getD_eq_getElem?_getD, List.getElem?_set_self (by simpa using h)]
  rfl

theorem getD_set_ne (l : List (Option Nat)) (i j : Nat) (a d : Option Nat)
    (h : i ≠ j) : (l.set i a).getD j d = l.getD j d := by
  rw [List.getD_eq_getElem?_getD, List.getElem?_set_ne h, ← List.getD_eq_getElem?_getD]

theorem dlIdx_lt {cfg : Config} {s : Nat} (h : s ∈ cfg.dlSyms) :
    cfg.getDLSymbolIdx s < cfg.numDLSyms :=
  List.indexOf_lt_length.mpr h

theorem dlIdx_inj {cfg : Config} {s s' : Nat} (h1 : s ∈ cfg.dlSyms)
    (h2 : s' ∈ cfg.dlSyms)
    (h : cfg.getDLSymbolIdx s = cfg.getDLSymbolIdx s') : s = s' := by
  have l1 := List.indexOf_lt_length.mpr h1
  have l2 := List.indexOf_lt_length.mpr h2
  have e1 := List.getElem_indexOf l1
  have e2 := List.getElem_indexOf l2
  have e1q : cfg.dlSyms[cfg.dlSyms.indexOf s]? = some s := by
    rw [List.getElem?_eq_getElem l1]
    exact congrArg some e1
  have e2q : cfg.dlSyms[cfg.dlSyms.indexOf s']? = some s' := by
    rw [List.getElem?_eq_getElem l2]
    exact congrArg some e2
  have hidx : cfg.dlSyms.indexOf s = cfg.dlSyms.indexOf s' := h
  rw [hidx] at e1q
  exact Option.some.inj (e1q.symm.trans e2q)

theorem range_append_flush (a b : Nat) :
    List.range (a + b) = List.range a ++ List.range' a b := by
  have hr := List.range'_append_1 0 a b
  rw [Nat.zero_add] at hr
  rw [List.range_eq_range', List.range_eq_range', Nat.add_comm a b, ← hr]

theorem cfc_no_complete {cfg : Config} {st : AgoraState} {frame : Nat}
    (hcond : ¬frameCompleteCond cfg st frame) :
    checkFrameComplete cfg st frame = some (st, [], false) := by
  simp only [checkFrameComplete]
  rw [if_neg hcond]

theorem ifftSymbolDone_c4 {cfg : Config} {F : Nat} {fl : AgoraState × List OutEv}
    {st' : AgoraState} {out : List OutEv} {stp : Bool}
    (hdl : 0 < cfg.numDLSyms)
    (htx0 : fl.1.txCounters.getSymbolCount F = 0)
    (htxm : fl.1.txCounters.maxSymbol = cfg.numDLSyms)
    (h : ifftSymbolDone cfg F fl = some (st', out, stp)) :
    ∃ ic nx fg sc lg,
      st' = { fl.1 with ifftCounters := ic, ifftNextSymbol := nx, scheduleFlags := fg, curScheFrame := sc, flagLog := lg } ∧
      (nx = fl.1.ifftNextSymbol ∨ nx = 0) ∧
      (∀ f' s', fl.1.ifftCounters.getTaskCount f' s' ≤ ic.getTaskCount f' s') ∧
      ic.maxTask = fl.1.ifftCounters.maxTask := by
  simp only [ifftSymbolDone] at h
  split at h
  · split at h
    · split at h
      · exact Option.noConfusion h
      · rename_i s2 hci
        obtain ⟨fg, sc, lg, hs2⟩ := ci_state hci
        have hcond : ¬frameCompleteCond cfg s2 F := by
          intro hc
          have htl := hc.2.1
          rw [hs2] at htl
          have htl2 : (fl.1.txCounters.getSymbolCount F == fl.1.txCounters.maxSymbol) = true := htl
          rw [htx0, htxm, beq_iff_eq] at htl2
          omega
        rw [cfc_no_complete hcond] at h
        split at h
        · exact Option.noConfusion h
        · rename_i s3 o3 b3 hcf
          simp only [Option.some.injEq, Prod.mk.injEq] at hcf h
          obtain ⟨hc1, -⟩ := hcf
          obtain ⟨h1, -⟩ := h
          subst h1
          subst hc1
          refine ⟨(fl.1.ifftCounters.completeSymbol F).1, 0, fg, sc, lg, ?_,
            .inr rfl, fun f' s' => Nat.le_of_eq rfl, rfl⟩
          rw [hs2]
    · exact Option.noConfusion h
  · simp only [Option.some.injEq, Prod.mk.injEq] at h
    obtain ⟨h1, -⟩ := h
    subst h1
    exact ⟨_, fl.1.ifftNextSymbol, fl.1.scheduleFlags, fl.1.curScheFrame,
      fl.1.flagLog, rfl, .inl rfl, fun f' s' => Nat.le_of_eq rfl, rfl⟩

theorem handleIfftTag_c4 {cfg : Config} {F s : Nat} {st st' : AgoraState}
    {out : List OutEv} {stp : Bool}
    (hdl : 0 < cfg.numDLSyms) (hs : s ∈ cfg.dlSyms)
    (hinv : c4Inv cfg F st)
    (h : handleIfftTag cfg st F s = some (st', out, stp)) :
    c4Inv cfg F st' ∧ ∃ t, st'.txHist = st.txHist ++ t := by
  obtain ⟨hK0, hK1, hT0, hTm, hK4, k, hk, hhist, hnx, hent⟩ := hinv
  simp only [handleIfftTag] at h
  split at h
  · rename_i hlast
    have hcount : st.ifftCounters.getTaskCount F s + 1 = cfg.bsAntNum := by
      have hcl := completeTask_last st.ifftCounters F s hlast
      rw [hK0] at hcl
      exact hcl
    have hidxlt : cfg.getDLSymbolIdx s < cfg.numDLSyms := dlIdx_lt hs
    by_cases hcnd : cfg.getDLSymbolIdx s = st.ifftNextSymbol
    · rw [if_pos hcnd] at h
      have hidxk : cfg.getDLSymbolIdx s = k := by
        rcases hnx with hxk | hx0
        · exact hcnd.trans hxk
        · have hidx0 : cfg.getDLSymbolIdx s = 0 := hcnd.trans hx0
          rcases Nat.eq_zero_or_pos k with hk0 | hk0
          · rw [hidx0, hk0]
          · exfalso
            have he0 := hent 0 hk0
            have hc4 := hK4 s hs (by rw [hidx0]; exact he0)
            omega
      obtain ⟨m, hm, heqF, hentF⟩ := txFlush_c4 cfg F
        ((st.ifftCounters.completeTask F s).1.getSymbolCount F + 1 - cfg.getDLSymbolIdx s)
        (cfg.getDLSymbolIdx s)
        { st with ifftCounters := (st.ifftCounters.completeTask F s).1, ifftCurFrameForSymbol := st.ifftCurFrameForSymbol.set (cfg.getDLSymbolIdx s) (some F) }
        hcnd.symm
      obtain ⟨ic, nx, fg, sc, lg, hsteq, hnx2, hmono, hmaxT⟩ :=
        ifftSymbolDone_c4 hdl (by rw [heqF]; exact hT0) (by rw [heqF]; exact hTm) h
      rw [heqF] at hsteq hnx2 hmono hmaxT
      have hmono2 : ∀ s2, (st.ifftCounters.completeTask F s).1.getTaskCount F s2 ≤ ic.getTaskCount F s2 := fun s2 => hmono F s2
      have hmax2 : ic.maxTask = cfg.bsAntNum := hmaxT.trans hK0
      refine ⟨⟨?_, ?_, ?_, ?_, ?_, k + m, ?_, ?_, ?_, ?_⟩, ?_⟩
      · simp only [hsteq]
        exact hmax2
      · simp only [hsteq, List.length_set]
        exact hK1
      · simp only [hsteq]
        exact hT0
      · simp only [hsteq]
        exact hTm
      · intro s2 hs2 he2
        simp only [hsteq] at he2
        by_cases hss : cfg.getDLSymbolIdx s2 = cfg.getDLSymbolIdx s
        · have hse : s2 = s := dlIdx_inj hs2 hs hss
          subst hse
          have hself := completeTask_getTaskCount_self st.ifftCounters F s2
          have hmm := hmono2 s2
          simp only [hsteq]
          omega
        · rw [getD_set_ne _ _ _ _ _ (fun he => hss (he.symm))] at he2
          have hold := hK4 s2 hs2 he2
          have hmo1 := completeTask_getTaskCount_mono st.ifftCounters F s F s2
          have hmm := hmono2 s2
          simp only [hsteq]
          omega
      · rcases Nat.eq_zero_or_pos m with hm0 | hm0
        · omega
        · have heF := hentF (cfg.getDLSymbolIdx s + m - 1) (by omega) (by omega)
          by_cases hin : cfg.getDLSymbolIdx s + m - 1 < cfg.numDLSyms
          · omega
          · exfalso
            rw [List.getD_eq_default] at heF
            · exact Option.noConfusion heF
            · rw [List.length_set]
              omega
      · simp only [hsteq]
        show st.txHist ++ (List.range' (cfg.getDLSymbolIdx s) m).map (fun i => (F, cfg.getDLSymbol i)) = (List.range (k + m)).map (fun i => (F, cfg.getDLSymbol i))
        rw [hhist, hidxk, range_append_flush, List.map_append]
      · rcases hnx2 with hn1 | hn1
        · left
          simp only [hsteq]
          rw [hn1, hidxk]
        · right
          simp only [hsteq]
          exact hn1
      · intro i hi
        simp only [hsteq]
        by_cases hik : k ≤ i
        · exact hentF i (by omega) (by omega)
        · rw [getD_set_ne _ _ _ _ _ (by omega)]
          exact hent i (by omega)
      · refine ⟨(List.range' (cfg.getDLSymbolIdx s) m).map (fun i => (F, cfg.getDLSymbol i)), ?_⟩
        simp only [hsteq]
    · rw [if_neg hcnd] at h
      obtain ⟨ic, nx, fg, sc, lg, hsteq, hnx2, hmono, hmaxT⟩ :=
        ifftSymbolDone_c4 hdl hT0 hTm h
      have hmono2 : ∀ s2, (st.ifftCounters.completeTask F s).1.getTaskCount F s2 ≤ ic.getTaskCount F s2 := fun s2 => hmono F s2
      have hmax2 : ic.maxTask = cfg.bsAntNum := hmaxT.trans hK0
      refine ⟨⟨?_, ?_, ?_, ?_, ?_, k, hk, ?_, ?_, ?_⟩, [], ?_⟩
      · simp only [hsteq]
        exact hmax2
      · simp only [hsteq, List.length_set]
        exact hK1
      · simp only [hsteq]
        exact hT0
      · simp only [hsteq]
        exact hTm
      · intro s2 hs2 he2
        simp only [hsteq] at he2
        by_cases hss : cfg.getDLSymbolIdx s2 = cfg.getDLSymbolIdx s
        · have hse : s2 = s := dlIdx_inj hs2 hs hss
          subst hse
          have hself := completeTask_getTaskCount_self st.ifftCounters F s2
          have hmm := hmono2 s2
          simp only [hsteq]
          omega
        · rw [getD_set_ne _ _ _ _ _ (fun he => hss (he.symm))] at he2
          have hold := hK4 s2 hs2 he2
          have hmo1 := completeTask_getTaskCount_mono st.ifftCounters F s F s2
          have hmm := hmono2 s2
          simp only [hsteq]
          omega
      · simp only [hsteq]
        exact hhist
      · rcases hnx2 with hn1 | hn1
        · rcases hnx with hxk | hx0
          · left
            simp only [hsteq]
            rw [hn1]
            exact hxk
          · right
            simp only [hsteq]
            rw [hn1]
            exact hx0
        · right
          simp only [hsteq]
          exact hn1
      · intro i hi
        simp only [hsteq]
        by_cases hii : cfg.getDLSymbolIdx s = i
        · rw [hii, getD_set_self]
          rw [hK1]
          rw [← hii]
          exact hidxlt
        · rw [getD_set_ne _ _ _ _ _ hii]
          exact hent i hi
      · simp only [hsteq, List.append_nil]
  · rename_i hlast
    simp only [Option.some.injEq, Prod.mk.injEq] at h
    obtain ⟨h1, -⟩ := h
    subst h1
    refine ⟨⟨hK0, hK1, hT0, hTm, ?_, k, hk, hhist, hnx, hent⟩, [], (List.append_nil _).symm⟩
    intro s2 hs2 he2
    exact Nat.le_trans (hK4 s2 hs2 he2) (completeTask_getTaskCount_mono _ _ _ _ _)

theorem getD_replicate_none (n i : Nat) :
    (List.replicate n (none : Option Nat)).getD i none = none := by
  rw [List.getD_eq_getElem?_getD, List.getElem?_replicate]
  split <;> rfl

theorem c4Inv_congr {cfg : Config} {F : Nat} {a b : AgoraState}
    (hic : b.ifftCounters = a.ifftCounters)
    (he : b.ifftCurFrameForSymbol = a.ifftCurFrameForSymbol)
    (htx : b.txCounters = a.txCounters)
    (hh : b.txHist = a.txHist)
    (hn : b.ifftNextSymbol = a.ifftNextSymbol)
    (h : c4Inv cfg F a) : c4Inv cfg F b := by
  obtain ⟨h0, h1, h2, h3, h4, k, hk, h5, h6, h7⟩ := h
  refine ⟨?_, ?_, ?_, ?_, ?_, k, hk, ?_, ?_, ?_⟩
  · rw [hic]
    exact h0
  · rw [he]
    exact h1
  · rw [htx]
    exact h2
  · rw [htx]
    exact h3
  · intro s2 hs2 he2
    rw [he] at he2
    rw [hic]
    exact h4 s2 hs2 he2
  · rw [hh]
    exact h5
  · rw [hn]
    exact h6
  · intro i hi
    rw [he]
    exact h7 i hi

theorem initState_c4 {cfg : Config} (F : Nat) (hdl : 0 < cfg.numDLSyms) :
    c4Inv cfg F (initState cfg) := by
  refine ⟨?_, ?_, ?_, ?_, ?_, 0, Nat.zero_le _, rfl, Or.inl ?_, ?_⟩
  · simp only [initState, if_pos hdl]
    rfl
  · simp only [initState, List.length_replicate]
  · simp only [initState, if_pos hdl]
    rfl
  · simp only [initState, if_pos hdl]
    rfl
  · intro s2 hs2 he2
    simp only [initState] at he2
    rw [getD_replicate_none] at he2
    exact Option.noConfusion he2
  · simp only [initState]
  · intro i hi
    exact absurd hi (Nat.not_lt_zero i)

theorem step_ifft_c4 {cfg : Config} {F s : Nat} {st st' : AgoraState} {out : List OutEv}
    (hdl : 0 < cfg.numDLSyms) (hs : s ∈ cfg.dlSyms)
    (hinv : c4Inv cfg F st)
    (h : step cfg st (Ev.ifft [(F, s)]) = some (st', out)) :
    c4Inv cfg F st' ∧ ∃ t, st'.txHist = st.txHist ++ t := by
  obtain ⟨st1, out1, wf, hd, hrest⟩ := step_decomp h
  cases hT : handleIfftTag cfg st F s with
  | none =>
    simp only [dispatch, handleIfft, hT] at hd
    exact Option.noConfusion hd
  | some r =>
    obtain ⟨st2, out2, stop⟩ := r
    have hinv2 := handleIfftTag_c4 hdl hs hinv hT
    simp only [dispatch, handleIfft, hT] at hd
    have h12 : st1 = st2 := by
      split at hd
      · simp only [Option.some.injEq, Prod.mk.injEq] at hd
        exact hd.1.symm
      · simp only [Option.some.injEq, Prod.mk.injEq] at hd
        exact hd.1.symm
    subst h12
    rcases hrest with ⟨-, hst', -⟩ | ⟨-, out2', hdr, -⟩
    · subst hst'
      refine ⟨c4Inv_congr rfl rfl rfl rfl rfl hinv2.1, hinv2.2⟩
    · obtain ⟨q, c, fl2, sc, lg, heq⟩ := drainFft_state hdr
      subst heq
      refine ⟨c4Inv_congr rfl rfl rfl rfl rfl hinv2.1, hinv2.2⟩

/-- C4: along any sequence of IFFT completion events of frame `F` on
downlink symbols, started from the initial state, the TX dispatch history
for `F` is exactly the downlink symbols of index `0, 1, ..., k-1` in
strictly increasing index order (out-of-order IFFT completions are
buffered in `ifft_cur_frame_for_symbol` and flushed only once every
lower-indexed downlink symbol's TX has been dispatched, as recorded by the
invariant `c4Inv`). -/
theorem c4_tx_in_order (cfg : Config) (F : Nat) (hdl : 0 < cfg.numDLSyms) :
    ∀ (tags : List Nat), (∀ s, s ∈ tags → s ∈ cfg.dlSyms) →
    ∀ st', run cfg (initState cfg) (tags.map (fun s => Ev.ifft [(F, s)])) = some st' →
    c4Inv cfg F st' ∧ ∃ k, k ≤ cfg.numDLSyms ∧
      st'.txHist = (List.range k).map (fun i => (F, cfg.getDLSymbol i)) := by
  intro tags
  induction tags using List.reverseRecOn with
  | nil =>
    intro _ st' h
    simp only [List.map_nil, run, List.foldlM_nil, Option.pure_def,
      Option.some.injEq] at h
    subst h
    exact ⟨initState_c4 F hdl, 0, Nat.zero_le _, rfl⟩
  | append_singleton tags s ih =>
    intro hts st' h
    rw [List.map_append, List.map_cons, List.map_nil, run_append] at h
    cases hr : run cfg (initState cfg) (tags.map (fun s => Ev.ifft [(F, s)])) with
    | none =>
      rw [hr] at h
      exact absurd h (by simp)
    | some stMid =>
      rw [hr] at h
      simp only [Option.some_bind] at h
      cases hstp : step cfg stMid (Ev.ifft [(F, s)]) with
      | none =>
        rw [hstp] at h
        exact absurd h (by simp)
      | some p =>
        rw [hstp] at h
        simp only [Option.map_some', Option.some.injEq] at h
        subst h
        have hmid := ih (fun x hx => hts x (List.mem_append_left _ hx)) stMid hr
        have hstp2 : step cfg stMid (Ev.ifft [(F, s)]) = some (p.1, p.2) := by
          rw [hstp]
        have hstep := step_ifft_c4 hdl
          (hts s (List.mem_append_right _ (List.mem_singleton_self s)))
          hmid.1 hstp2
        obtain ⟨-, -, -, -, -, k, hk, hh, -, -⟩ := hstep.1
        exact ⟨hstep.1, k, hk, hh⟩

theorem c4_tx_in_order_witness :
    ∃ st', run cfgD (initState cfgD) ([2, 1].map (fun s => Ev.ifft [(0, s)])) = some st' ∧
      (c4Inv cfgD 0 st' ∧ ∃ k, k ≤ cfgD.numDLSyms ∧
        st'.txHist = (List.range k).map (fun i => (0, cfgD.getDLSymbol i))) := by
  cases hrun : run cfgD (initState cfgD) ([2, 1].map (fun s => Ev.ifft [(0, s)])) with
  | none =>
    have hcomp : (run cfgD (initState cfgD)
        ([2, 1].map (fun s => Ev.ifft [(0, s)]))).isSome = true := by rfl
    rw [hrun] at hcomp
    exact Bool.noConfusion hcomp
  | some st' =>
    exact ⟨st', rfl, c4_tx_in_order cfgD 0 (by decide) [2, 1] (by decide) st' hrun⟩

end Agora
